import Mathlib

/-!
Verification model of the rkyv archiving engine.

The repository sources contain the archive test suite
(`archive_test/src/lib.rs`) and the derive-macro entry points
(`rkyv_derive/src/lib.rs`).  The core `archive` crate — the buffer sink,
the `Archive`/`ArchiveRef` contracts, the relative-pointer scheme and the
archived hash map — is exercised by those tests, but its code is not among
the sources; it is modelled here from the specification, faithful to the
stated layout and ordering rules.  The conventions the specification
leaves open (relative-offset base, byte order, hash algorithm) are fixed
once, as the specification instructs, and documented on the definitions:
little-endian byte order, 64-bit pointers and lengths, relative offsets
measured from the start of the pointer's own storage.
-/

namespace Rkyv

/-- Bytes are modelled as natural numbers; well-formed data keeps them below 256. -/
abbrev Byte := Nat

/-- Modelled from the spec: the minimum padding (0..a-1 bytes) that takes
position `pos` to a multiple of the alignment `a` (§4.1 `align(n)`). -/
def padLen (pos a : Nat) : Nat := (a - pos % a) % a

/-- The position reached after aligning `pos` to `a`. -/
def alignUp (pos a : Nat) : Nat := pos + padLen pos a

theorem padLen_lt (pos : Nat) {a : Nat} (ha : 0 < a) : padLen pos a < a :=
  Nat.mod_lt _ ha

theorem alignUp_mod (pos : Nat) {a : Nat} (ha : 0 < a) : alignUp pos a % a = 0 := by
  unfold alignUp padLen
  rcases Nat.eq_zero_or_pos (pos % a) with h | h
  · simp [h, Nat.mod_self]
  · have h1 : pos % a < a := Nat.mod_lt _ ha
    have h2 : (a - pos % a) % a = a - pos % a := Nat.mod_eq_of_lt (Nat.sub_lt ha h)
    have h5 : pos % a ≤ pos := Nat.mod_le pos a
    have h6 : pos + (a - pos % a) = (pos - pos % a) + a := by omega
    rw [h2, h6, Nat.add_mod_right]
    have h3 : pos - pos % a = a * (pos / a) := by
      have h4 := Nat.mod_add_div pos a
      omega
    rw [h3, Nat.mul_mod_right]

theorem le_alignUp (pos a : Nat) : pos ≤ alignUp pos a :=
  Nat.le_add_right _ _

theorem dvd_alignUp (pos : Nat) {a : Nat} (ha : 0 < a) : a ∣ alignUp pos a :=
  Nat.dvd_of_mod_eq_zero (alignUp_mod pos ha)

/-- Little-endian encoding of `v` in `w` bytes (byte-order convention, §6). -/
def leBytes : Nat → Nat → List Byte
  | 0, _ => []
  | w + 1, v => v % 256 :: leBytes w (v / 256)

/-- The value denoted by a little-endian byte string. -/
def leVal : List Byte → Nat
  | [] => 0
  | b :: bs => b + 256 * leVal bs

theorem leBytes_length (w v : Nat) : (leBytes w v).length = w := by
  induction w generalizing v with
  | zero => rfl
  | succ w ih => simp [leBytes, ih]

theorem leVal_leBytes {w v : Nat} (h : v < 256 ^ w) : leVal (leBytes w v) = v := by
  induction w generalizing v with
  | zero => simp [pow_zero] at h; simp [leBytes, leVal, h]
  | succ w ih =>
      have hdiv : v / 256 < 256 ^ w := by
        rw [Nat.div_lt_iff_lt_mul (by norm_num)]
        calc v < 256 ^ (w + 1) := h
        _ = 256 ^ w * 256 := by ring
      simp [leBytes, leVal, ih hdiv]
      omega

/-- Modelled from the spec: the error kinds of the engine (§7) — capacity
exceeded during a write or padding operation, and a relative-pointer target
outside the representable offset range. -/
inductive ArchiveError where
  | overflow
  | offsetOverflow
deriving DecidableEq

/-- Modelled from the spec: the buffer sink (§4.2) — a sink over a
fixed-capacity byte region, with a single position counter starting at 0.
`data` is the list of bytes written so far; the position is `data.length`. -/
structure ArchiveBuffer where
  cap : Nat
  data : List Byte
deriving DecidableEq

/-- A fresh buffer sink of capacity `cap` (source: `ArchiveBuffer::new`). -/
def ArchiveBuffer.new (cap : Nat) : ArchiveBuffer := ⟨cap, []⟩

/-- The sink's current write position (§4.1 `position()`). -/
def ArchiveBuffer.pos (b : ArchiveBuffer) : Nat := b.data.length

/-- Modelled from the spec: `write(bytes)` appends the bytes verbatim and
returns the offset where writing began; any write that would exceed the sink
capacity fails with an overflow error (§4.1, §4.2). -/
def ArchiveBuffer.write (b : ArchiveBuffer) (bs : List Byte) :
    Except ArchiveError (Nat × ArchiveBuffer) :=
  if b.data.length + bs.length ≤ b.cap then
    .ok (b.data.length, ⟨b.cap, b.data ++ bs⟩)
  else
    .error .overflow

/-- Modelled from the spec: `align(n)` writes the minimum number of zero-valued
padding bytes so that the resulting position is a multiple of `n` (§4.1, §4.2). -/
def ArchiveBuffer.align (b : ArchiveBuffer) (a : Nat) : Except ArchiveError ArchiveBuffer :=
  (b.write (List.replicate (padLen b.pos a) 0)).map Prod.snd

/-- Modelled from the spec: the archived-layout types the engine supports —
plain scalars of every fixed width, tuples, fixed-size arrays, optionals,
owning indirections, growable sequences and text (§4.4, §4.5).  Integer and
float widths are in bytes. -/
inductive Ty where
  | unit
  | bool
  | uint (w : Nat)
  | sint (w : Nat)
  | float (w : Nat)
  | tuple (ts : List Ty)
  | array (t : Ty) (n : Nat)
  | opt (t : Ty)
  | boxed (t : Ty)
  | vec (t : Ty)
  | str

mutual

/-- Boolean structural equality on layout types. -/
def tyEqB : Ty → Ty → Bool
  | .unit, .unit => true
  | .bool, .bool => true
  | .uint w, .uint w2 => w == w2
  | .sint w, .sint w2 => w == w2
  | .float w, .float w2 => w == w2
  | .tuple ts, .tuple us => tyEqListB ts us
  | .array t n, .array u m => tyEqB t u && n == m
  | .opt t, .opt u => tyEqB t u
  | .boxed t, .boxed u => tyEqB t u
  | .vec t, .vec u => tyEqB t u
  | .str, .str => true
  | _, _ => false

def tyEqListB : List Ty → List Ty → Bool
  | [], [] => true
  | t :: ts, u :: us => tyEqB t u && tyEqListB ts us
  | _, _ => false

end

theorem tyEqListB_iff (ts us : List Ty)
    (IH : ∀ s ∈ ts, ∀ t, (tyEqB s t = true ↔ s = t)) :
    tyEqListB ts us = true ↔ ts = us := by
  induction ts generalizing us with
  | nil => cases us <;> simp [tyEqListB]
  | cons t ts ih =>
      cases us with
      | nil => simp [tyEqListB]
      | cons u us =>
          simp only [tyEqListB, Bool.and_eq_true, List.cons.injEq]
          rw [IH t (by simp), ih us (fun s hs t2 => IH s (by simp [hs]) t2)]

theorem tyEqB_iff (s t : Ty) : tyEqB s t = true ↔ s = t := by
  cases s <;> cases t <;> simp only [tyEqB] <;> try simp
  case tuple.tuple ts us =>
    rw [tyEqListB_iff ts us (fun s2 hs t2 => tyEqB_iff s2 t2)]
  case array.array t1 n1 t2 n2 =>
    rw [tyEqB_iff t1 t2]
    intro _
    rfl
  case opt.opt t1 t2 => exact tyEqB_iff t1 t2
  case boxed.boxed t1 t2 => exact tyEqB_iff t1 t2
  case vec.vec t1 t2 => exact tyEqB_iff t1 t2
termination_by sizeOf s
decreasing_by
  all_goals simp_wf
  all_goals first
    | omega
    | (have h9 := List.sizeOf_lt_of_mem hs; omega)

instance : DecidableEq Ty := fun s t => decidable_of_iff _ (tyEqB_iff s t)

/-- Native values of the supported types.  Floats are carried as their bit
patterns: the engine never interprets them, it only lays their bytes out. -/
inductive Value where
  | unit
  | bool (b : Bool)
  | uint (w : Nat) (v : Nat)
  | sint (w : Nat) (v : Int)
  | float (w : Nat) (bits : Nat)
  | tuple (vs : List Value)
  | array (t : Ty) (vs : List Value)
  | opt (t : Ty) (v : Option Value)
  | boxed (v : Value)
  | vec (t : Ty) (vs : List Value)
  | str (s : List Byte)

mutual

/-- The archived-layout type of a value. -/
def ty : Value → Ty
  | .unit => .unit
  | .bool _ => .bool
  | .uint w _ => .uint w
  | .sint w _ => .sint w
  | .float w _ => .float w
  | .tuple vs => .tuple (tyList vs)
  | .array t vs => .array t vs.length
  | .opt t _ => .opt t
  | .boxed v => .boxed (ty v)
  | .vec t _ => .vec t
  | .str _ => .str

def tyList : List Value → List Ty
  | [] => []
  | v :: vs => ty v :: tyList vs

end

mutual

/-- Modelled from the spec: the required alignment of each archived layout
(§4.4 natural alignment for scalars, field alignment for composites;
references use the 64-bit pointer convention fixed in §6). -/
def alignOf : Ty → Nat
  | .unit => 1
  | .bool => 1
  | .uint w => max 1 w
  | .sint w => max 1 w
  | .float w => max 1 w
  | .tuple ts => alignOfList ts
  | .array t _ => alignOf t
  | .opt t => alignOf t
  | .boxed _ => 8
  | .vec _ => 8
  | .str => 8

def alignOfList : List Ty → Nat
  | [] => 1
  | t :: ts => max (alignOf t) (alignOfList ts)

end

/-- The offset of an optional value's payload: the 1-byte discriminant tag
comes first, then the payload at its own alignment (§4.4: tag first). -/
def optPayloadOff (t : Ty) : Nat := alignUp 1 (alignOf t)

mutual

/-- Modelled from the spec: the byte size of each archived layout — scalars
have their natural size, composites follow field order with alignment padding
(§2.6, §4.4); references are a 64-bit relative pointer, plus a 64-bit length
for sequences and text (§6 conventions). -/
def tySize : Ty → Nat
  | .unit => 0
  | .bool => 1
  | .uint w => w
  | .sint w => w
  | .float w => w
  | .tuple ts => alignUp (structEnd ts 0) (alignOfList ts)
  | .array t n => n * tySize t
  | .opt t => alignUp (alignUp 1 (alignOf t) + tySize t) (alignOf t)
  | .boxed _ => 8
  | .vec _ => 16
  | .str => 16

/-- The end offset after laying the fields `ts` out in order starting at
`off`, each at its own alignment. -/
def structEnd : List Ty → Nat → Nat
  | [], off => off
  | t :: ts, off => structEnd ts (alignUp off (alignOf t) + tySize t)

end

mutual

/-- Well-formedness of a value: scalar payloads fit their width, composite
children are well formed, and homogeneous containers really are homogeneous. -/
def wf : Value → Bool
  | .unit => true
  | .bool _ => true
  | .uint w v => decide (0 < w) && decide (v < 256 ^ w)
  | .sint w v => decide (0 < w) && decide (-(2 : Int) ^ (8 * w - 1) ≤ v)
      && decide (v < (2 : Int) ^ (8 * w - 1))
  | .float w bits => decide (0 < w) && decide (bits < 256 ^ w)
  | .tuple vs => wfList vs
  | .array t vs => wfHomog t vs
  | .opt _ .none => true
  | .opt t (.some v) => wf v && tyEqB (ty v) t
  | .boxed v => wf v
  | .vec t vs => wfHomog t vs && decide (vs.length < 2 ^ 64)
  | .str s => s.all (fun c => decide (c < 256)) && decide (s.length < 2 ^ 64)

def wfList : List Value → Bool
  | [] => true
  | v :: vs => wf v && wfList vs

def wfHomog : Ty → List Value → Bool
  | _, [] => true
  | t, v :: vs => wf v && tyEqB (ty v) t && wfHomog t vs

end

/-- Modelled from the spec: the record of where a value's out-of-line
children were written during phase one of archiving — the positions its
inline relative pointers will be computed from (§4.4 children before
parent). -/
inductive Resolver where
  | scalar
  | tuple (rs : List Resolver)
  | array (rs : List Resolver)
  | opt (r : Option Resolver)
  | ref (target : Nat)
  | refLen (target : Nat) (len : Nat)

/-- Modelled from the spec: the stored form of a relative pointer at position
`selfPos` to a target at `target` — the two's-complement 64-bit little-endian
encoding of `target - selfPos` (§4.3; offset base convention: measured from
the start of the pointer's own storage). -/
def encRel (selfPos target : Nat) : List Byte :=
  leBytes 8 ((2 ^ 64 + target - selfPos) % 2 ^ 64)

mutual

/-- Modelled from the spec: the inline bytes of an archived value placed at
absolute position `p` — scalars in their natural little-endian layout,
composites in field order with alignment padding, optionals as a tag byte
followed by the payload, references as relative pointer plus metadata
(§2.6, §4.4, §4.5). -/
def valueBytes : Value → Resolver → Nat → List Byte
  | .unit, _, _ => []
  | .bool b, _, _ => [if b then 1 else 0]
  | .uint w v, _, _ => leBytes w v
  | .sint w v, _, _ => leBytes w (v % (2 : Int) ^ (8 * w)).toNat
  | .float w bits, _, _ => leBytes w bits
  | .tuple vs, .tuple rs, p =>
      fieldsBytes vs rs p 0
        ++ List.replicate (tySize (.tuple (tyList vs)) - structEnd (tyList vs) 0) 0
  | .array _ vs, .array rs, p => elemsBytes vs rs p
  | .opt t .none, _, _ => 0 :: List.replicate (tySize (.opt t) - 1) 0
  | .opt t (.some v), .opt (.some r), p =>
      1 :: (List.replicate (optPayloadOff t - 1) 0
        ++ valueBytes v r (p + optPayloadOff t)
        ++ List.replicate (tySize (.opt t) - (optPayloadOff t + tySize (ty v))) 0)
  | .boxed _, .ref target, p => encRel p target
  | .vec _ _, .refLen target len, p => encRel p target ++ leBytes 8 len
  | .str _, .refLen target len, p => encRel p target ++ leBytes 8 len
  | _, _, _ => []

/-- Inline bytes of tuple fields laid out from offset `off` relative to the
tuple's own position `base`, with minimal alignment padding between fields. -/
def fieldsBytes : List Value → List Resolver → Nat → Nat → List Byte
  | v :: vs, r :: rs, base, off =>
      List.replicate (padLen off (alignOf (ty v))) 0
        ++ valueBytes v r (base + alignUp off (alignOf (ty v)))
        ++ fieldsBytes vs rs base (alignUp off (alignOf (ty v)) + tySize (ty v))
  | _, _, _, _ => []

/-- Inline bytes of sequence elements, strictly contiguous with zero
inter-element padding (§4.5). -/
def elemsBytes : List Value → List Resolver → Nat → List Byte
  | v :: vs, r :: rs, p => valueBytes v r p ++ elemsBytes vs rs (p + tySize (ty v))
  | _, _, _ => []

end

mutual

/-- Modelled from the spec: phase one of archiving a value — recursively
archive every out-of-line child (payloads first), recording in the resolver
the positions they were written at (§4.4: children must be archived before
any relative pointer referencing them). -/
def serializeChildren : Value → ArchiveBuffer → Except ArchiveError (Resolver × ArchiveBuffer)
  | .unit, b => .ok (.scalar, b)
  | .bool _, b => .ok (.scalar, b)
  | .uint _ _, b => .ok (.scalar, b)
  | .sint _ _, b => .ok (.scalar, b)
  | .float _ _, b => .ok (.scalar, b)
  | .tuple vs, b => (serializeList vs b).map (fun x => (.tuple x.1, x.2))
  | .array _ vs, b => (serializeList vs b).map (fun x => (.array x.1, x.2))
  | .opt _ .none, b => .ok (.opt .none, b)
  | .opt _ (.some v), b => (serializeChildren v b).map (fun x => (.opt (.some x.1), x.2))
  | .boxed v, b => (archive v b).map (fun x => (.ref x.1, x.2))
  | .vec t vs, b => do
      let (rs, b1) ← serializeList vs b
      let b2 ← b1.align (alignOf t)
      let base := b2.pos
      let (_, b3) ← b2.write (elemsBytes vs rs base)
      .ok (.refLen base vs.length, b3)
  | .str s, b => do
      let (p, b1) ← b.write s
      .ok (.refLen p s.length, b1)
termination_by v _ => (sizeOf v, 0)

def serializeList : List Value → ArchiveBuffer → Except ArchiveError (List Resolver × ArchiveBuffer)
  | [], b => .ok ([], b)
  | v :: vs, b => do
      let (r, b1) ← serializeChildren v b
      let (rs, b2) ← serializeList vs b1
      .ok (r :: rs, b2)
termination_by vs _ => (sizeOf vs, 0)

/-- Modelled from the spec: `archive(value, sink) -> position` — archive the
value's children, align the sink to the value's required alignment, write the
value's own inline bytes, and return the position where they start
(§4.1 `archive_value`, §4.4 Archive contract). -/
def archive (v : Value) (b : ArchiveBuffer) : Except ArchiveError (Nat × ArchiveBuffer) := do
  let (r, b1) ← serializeChildren v b
  let b2 ← b1.align (alignOf (ty v))
  let (_, b3) ← b2.write (valueBytes v r b2.pos)
  .ok (b2.pos, b3)
termination_by (sizeOf v, 1)

end

/-- The bytes of an unsized value's reference (relative pointer plus
metadata) when the reference itself is stored at position `p` (§4.4). -/
def refBytes : Resolver → Nat → List Byte
  | .ref target, p => encRel p target
  | .refLen target len, p => encRel p target ++ leBytes 8 len
  | _, _ => []

/-- Modelled from the spec: `archive_ref(value, sink) -> position` for unsized
values — write the payload first, then the reference, and return the
reference's position, not the payload's (§4.1, §4.4 ArchiveRef contract). -/
def archive_ref (v : Value) (b : ArchiveBuffer) : Except ArchiveError (Nat × ArchiveBuffer) := do
  let (r, b1) ← serializeChildren v b
  let b2 ← b1.align 8
  let (_, b3) ← b2.write (refBytes r b2.pos)
  .ok (b2.pos, b3)

/-- The signed offset denoted by a stored 64-bit relative-pointer word
(two's complement). -/
def decodeOffset (n : Nat) : Int :=
  if n < 2 ^ 63 then (n : Int) else (n : Int) - 2 ^ 64

/-- Modelled from the spec: read-time resolution of a relative pointer stored
at `selfPos` — `resolved = address_of(pointer) + offset`, never an absolute
base (§4.3). -/
def resolveRel (selfPos : Nat) (n : Nat) : Int :=
  (selfPos : Int) + decodeOffset n

/-- A nonnegative integer as a position; negative means out of the region. -/
def toNatOpt (i : Int) : Option Nat := if 0 ≤ i then some i.toNat else none

/-- The signed value denoted by a `w`-byte little-endian word (two's
complement). -/
def decodeSigned (w n : Nat) : Int :=
  if n < 2 ^ (8 * w - 1) then (n : Int) else (n : Int) - 2 ^ (8 * w)

/-- The `n` bytes of the region `d` starting at position `p`, when the region
is long enough. -/
def readBytesAt (d : List Byte) (p n : Nat) : Option (List Byte) :=
  if p + n ≤ d.length then some ((d.drop p).take n) else none

mutual

/-- Modelled from the spec: reading an archived value of layout type `t`
directly from the raw bytes `d` at position `p` — no separate decode pass
beyond interpreting the bytes in place; references are followed by resolving
their relative pointers (§1, §4.3, §4.4). -/
def readVal : Ty → List Byte → Nat → Option Value
  | .unit, _, _ => some .unit
  | .bool, d, p =>
      (readBytesAt d p 1).bind (fun bs =>
        if bs = [0] then some (.bool false)
        else if bs = [1] then some (.bool true)
        else none)
  | .uint w, d, p => (readBytesAt d p w).map (fun bs => .uint w (leVal bs))
  | .sint w, d, p => (readBytesAt d p w).map (fun bs => .sint w (decodeSigned w (leVal bs)))
  | .float w, d, p => (readBytesAt d p w).map (fun bs => .float w (leVal bs))
  | .tuple ts, d, p => (readFields ts d p 0).map .tuple
  | .array t n, d, p => (readElems t n d p).map (fun vs => .array t vs)
  | .opt t, d, p =>
      (readBytesAt d p 1).bind (fun bs =>
        if bs = [0] then some (.opt t .none)
        else if bs = [1] then (readVal t d (p + optPayloadOff t)).map (fun v => .opt t (.some v))
        else none)
  | .boxed t, d, p => do
      let bs ← readBytesAt d p 8
      let q ← toNatOpt (resolveRel p (leVal bs))
      (readVal t d q).map .boxed
  | .vec t, d, p => do
      let pbs ← readBytesAt d p 8
      let lbs ← readBytesAt d (p + 8) 8
      let q ← toNatOpt (resolveRel p (leVal pbs))
      (readElems t (leVal lbs) d q).map (fun vs => .vec t vs)
  | .str, d, p => do
      let pbs ← readBytesAt d p 8
      let lbs ← readBytesAt d (p + 8) 8
      let q ← toNatOpt (resolveRel p (leVal pbs))
      let s ← readBytesAt d q (leVal lbs)
      some (.str s)
termination_by t _ _ => (sizeOf t, 0)

/-- Reading tuple fields laid out from offset `off` relative to base `p`. -/
def readFields : List Ty → List Byte → Nat → Nat → Option (List Value)
  | [], _, _, _ => some []
  | t :: ts, d, p, off => do
      let v ← readVal t d (p + alignUp off (alignOf t))
      let vs ← readFields ts d p (alignUp off (alignOf t) + tySize t)
      some (v :: vs)
termination_by ts _ _ _ => (sizeOf ts, 0)

/-- Reading `n` contiguous sequence elements of layout type `t` from
position `p` (stride `tySize t`, zero inter-element padding, §4.5). -/
def readElems : Ty → Nat → List Byte → Nat → Option (List Value)
  | _, 0, _, _ => some []
  | t, n + 1, d, p => do
      let v ← readVal t d p
      let vs ← readElems t n d (p + tySize t)
      some (v :: vs)
termination_by t n _ _ => (sizeOf t, n + 1)

end

theorem readBytesAt_spec {d : List Byte} {p n : Nat} {bs : List Byte}
    (h : readBytesAt d p n = some bs) :
    bs = (d.drop p).take n ∧ bs.length = n ∧ p + n ≤ d.length := by
  unfold readBytesAt at h
  split at h
  · rename_i hle
    cases h
    refine ⟨rfl, ?_, hle⟩
    rw [List.length_take, List.length_drop]
    omega
  · cases h

theorem readBytesAt_append {d : List Byte} (e : List Byte) {p n : Nat} {bs : List Byte}
    (h : readBytesAt d p n = some bs) : readBytesAt (d ++ e) p n = some bs := by
  obtain ⟨hbs, hlen, hle⟩ := readBytesAt_spec h
  unfold readBytesAt
  rw [if_pos (by simp only [List.length_append]; omega)]
  rw [List.drop_append_of_le_length (by omega),
    List.take_append_of_le_length (by rw [List.length_drop]; omega), ← hbs]

theorem readBytesAt_exact (d bs e : List Byte) :
    readBytesAt (d ++ (bs ++ e)) d.length bs.length = some bs := by
  unfold readBytesAt
  rw [if_pos (by simp only [List.length_append]; omega)]
  rw [List.drop_left, List.take_left]

theorem readBytesAt_sub {d : List Byte} {p n : Nat} {bs : List Byte}
    (h : readBytesAt d p n = some bs) (q m : Nat) (hqm : q + m ≤ n) :
    readBytesAt d (p + q) m = some ((bs.drop q).take m) := by
  obtain ⟨hbs, hlen, hle⟩ := readBytesAt_spec h
  subst hbs
  unfold readBytesAt
  rw [if_pos (by omega)]
  have h2 : (((d.drop p).take n).drop q).take m = (d.drop (p + q)).take m := by
    rw [List.drop_take, List.drop_drop, List.take_take]
    congr 1
    omega
  rw [h2]

mutual

theorem readVal_append {t : Ty} {d : List Byte} {p : Nat} {v : Value} (e : List Byte)
    (h : readVal t d p = some v) : readVal t (d ++ e) p = some v := by
  cases t with
  | unit => simpa [readVal] using h
  | bool =>
      simp only [readVal] at h ⊢
      obtain ⟨bs, hbs, h2⟩ := Option.bind_eq_some.mp h
      exact Option.bind_eq_some.mpr ⟨bs, readBytesAt_append e hbs, h2⟩
  | uint w =>
      simp only [readVal, Option.map_eq_some'] at h ⊢
      obtain ⟨bs, hbs, h2⟩ := h
      exact ⟨bs, readBytesAt_append e hbs, h2⟩
  | sint w =>
      simp only [readVal, Option.map_eq_some'] at h ⊢
      obtain ⟨bs, hbs, h2⟩ := h
      exact ⟨bs, readBytesAt_append e hbs, h2⟩
  | float w =>
      simp only [readVal, Option.map_eq_some'] at h ⊢
      obtain ⟨bs, hbs, h2⟩ := h
      exact ⟨bs, readBytesAt_append e hbs, h2⟩
  | tuple ts =>
      simp only [readVal, Option.map_eq_some'] at h ⊢
      obtain ⟨vs, hvs, h2⟩ := h
      exact ⟨vs, readFields_append e hvs, h2⟩
  | array t n =>
      simp only [readVal, Option.map_eq_some'] at h ⊢
      obtain ⟨vs, hvs, h2⟩ := h
      exact ⟨vs, readElems_append e hvs, h2⟩
  | opt t =>
      simp only [readVal] at h ⊢
      obtain ⟨bs, hbs, h2⟩ := Option.bind_eq_some.mp h
      refine Option.bind_eq_some.mpr ⟨bs, readBytesAt_append e hbs, ?_⟩
      by_cases h0 : bs = [0]
      · simpa [h0] using h2
      · by_cases h1 : bs = [1]
        · rw [if_neg h0, if_pos h1] at h2 ⊢
          obtain ⟨v2, hv2, h3⟩ := Option.map_eq_some'.mp h2
          exact Option.map_eq_some'.mpr ⟨v2, readVal_append e hv2, h3⟩
        · simp [h0, h1] at h2
  | boxed t =>
      simp only [readVal] at h ⊢
      obtain ⟨bs, hbs, h2⟩ := Option.bind_eq_some.mp h
      obtain ⟨q, hq, h3⟩ := Option.bind_eq_some.mp h2
      obtain ⟨v2, hv2, h4⟩ := Option.map_eq_some'.mp h3
      exact Option.bind_eq_some.mpr ⟨bs, readBytesAt_append e hbs,
        Option.bind_eq_some.mpr ⟨q, hq,
          Option.map_eq_some'.mpr ⟨v2, readVal_append e hv2, h4⟩⟩⟩
  | vec t =>
      simp only [readVal] at h ⊢
      obtain ⟨pbs, hpbs, h2⟩ := Option.bind_eq_some.mp h
      obtain ⟨lbs, hlbs, h3⟩ := Option.bind_eq_some.mp h2
      obtain ⟨q, hq, h4⟩ := Option.bind_eq_some.mp h3
      obtain ⟨vs, hvs, h5⟩ := Option.map_eq_some'.mp h4
      exact Option.bind_eq_some.mpr ⟨pbs, readBytesAt_append e hpbs,
        Option.bind_eq_some.mpr ⟨lbs, readBytesAt_append e hlbs,
          Option.bind_eq_some.mpr ⟨q, hq,
            Option.map_eq_some'.mpr ⟨vs, readElems_append e hvs, h5⟩⟩⟩⟩
  | str =>
      simp only [readVal] at h ⊢
      obtain ⟨pbs, hpbs, h2⟩ := Option.bind_eq_some.mp h
      obtain ⟨lbs, hlbs, h3⟩ := Option.bind_eq_some.mp h2
      obtain ⟨q, hq, h4⟩ := Option.bind_eq_some.mp h3
      obtain ⟨s, hs, h5⟩ := Option.bind_eq_some.mp h4
      exact Option.bind_eq_some.mpr ⟨pbs, readBytesAt_append e hpbs,
        Option.bind_eq_some.mpr ⟨lbs, readBytesAt_append e hlbs,
          Option.bind_eq_some.mpr ⟨q, hq,
            Option.bind_eq_some.mpr ⟨s, readBytesAt_append e hs, h5⟩⟩⟩⟩
termination_by (sizeOf t, 0)

theorem readFields_append {ts : List Ty} {d : List Byte} {p off : Nat} {vs : List Value}
    (e : List Byte) (h : readFields ts d p off = some vs) :
    readFields ts (d ++ e) p off = some vs := by
  cases ts with
  | nil => simpa [readFields] using h
  | cons t ts =>
      simp only [readFields] at h ⊢
      obtain ⟨v, hv, h2⟩ := Option.bind_eq_some.mp h
      obtain ⟨vs2, hvs2, h3⟩ := Option.bind_eq_some.mp h2
      exact Option.bind_eq_some.mpr ⟨v, readVal_append e hv,
        Option.bind_eq_some.mpr ⟨vs2, readFields_append e hvs2, h3⟩⟩
termination_by (sizeOf ts, 0)

theorem readElems_append {t : Ty} {n : Nat} {d : List Byte} {p : Nat} {vs : List Value}
    (e : List Byte) (h : readElems t n d p = some vs) :
    readElems t n (d ++ e) p = some vs := by
  cases n with
  | zero => simpa [readElems] using h
  | succ n =>
      simp only [readElems] at h ⊢
      obtain ⟨v, hv, h2⟩ := Option.bind_eq_some.mp h
      obtain ⟨vs2, hvs2, h3⟩ := Option.bind_eq_some.mp h2
      exact Option.bind_eq_some.mpr ⟨v, readVal_append e hv,
        Option.bind_eq_some.mpr ⟨vs2, readElems_append e hvs2, h3⟩⟩
termination_by (sizeOf t, n + 1)

end

mutual

theorem alignOf_pos (t : Ty) : 0 < alignOf t := by
  cases t with
  | unit => exact Nat.one_pos
  | bool => exact Nat.one_pos
  | uint w => exact lt_of_lt_of_le Nat.one_pos (le_max_left 1 w)
  | sint w => exact lt_of_lt_of_le Nat.one_pos (le_max_left 1 w)
  | float w => exact lt_of_lt_of_le Nat.one_pos (le_max_left 1 w)
  | tuple ts => exact alignOfList_pos ts
  | array t n => exact alignOf_pos t
  | opt t => exact alignOf_pos t
  | boxed t => exact Nat.succ_pos 7
  | vec t => exact Nat.succ_pos 7
  | str => exact Nat.succ_pos 7

theorem alignOfList_pos (ts : List Ty) : 0 < alignOfList ts := by
  cases ts with
  | nil => exact Nat.one_pos
  | cons t ts => exact lt_of_lt_of_le (alignOfList_pos ts) (le_max_right _ _)

end

theorem structEnd_ge (ts : List Ty) (off : Nat) : off ≤ structEnd ts off := by
  induction ts generalizing off with
  | nil => simp [structEnd]
  | cons t ts ih =>
      simp only [structEnd]
      have h1 := le_alignUp off (alignOf t)
      have h2 := ih (alignUp off (alignOf t) + tySize t)
      omega

theorem optPayloadOff_pos (t : Ty) : 1 ≤ optPayloadOff t :=
  le_alignUp 1 (alignOf t)

theorem optPayloadOff_add_le (t : Ty) : optPayloadOff t + tySize t ≤ tySize (.opt t) := by
  simp only [tySize, optPayloadOff]
  exact le_alignUp _ _

mutual

/-- Modelled from the spec: validity of a resolver against the byte region
`full` of the session — every recorded child target lies at or below the
bound `bd` (the position reached when the children had been written), and
the referenced child data reads back as the original child (§4.4: children
are archived before any relative pointer referencing them). -/
def resolverOk : List Byte → Nat → Value → Resolver → Prop
  | _, _, .unit, .scalar => True
  | _, _, .bool _, .scalar => True
  | _, _, .uint _ _, .scalar => True
  | _, _, .sint _ _, .scalar => True
  | _, _, .float _ _, .scalar => True
  | full, bd, .tuple vs, .tuple rs => resolverOkList full bd vs rs
  | full, bd, .array _ vs, .array rs => resolverOkList full bd vs rs
  | full, bd, .opt _ vo, .opt ro => resolverOkOpt full bd vo ro
  | full, bd, .boxed v, .ref target => target ≤ bd ∧ readVal (ty v) full target = some v
  | full, bd, .vec t vs, .refLen target len =>
      target ≤ bd ∧ len = vs.length ∧ readElems t len full target = some vs
  | full, bd, .str s, .refLen target len =>
      target ≤ bd ∧ len = s.length ∧ readBytesAt full target len = some s
  | _, _, _, _ => False

def resolverOkList : List Byte → Nat → List Value → List Resolver → Prop
  | _, _, [], [] => True
  | full, bd, v :: vs, r :: rs => resolverOk full bd v r ∧ resolverOkList full bd vs rs
  | _, _, _, _ => False

def resolverOkOpt : List Byte → Nat → Option Value → Option Resolver → Prop
  | _, _, .none, .none => True
  | full, bd, .some v, .some r => resolverOk full bd v r
  | _, _, _, _ => False

end

mutual

theorem resolverOk_mono {full : List Byte} (e : List Byte) {bd bd2 : Nat} {v : Value}
    {r : Resolver} (hbd : bd ≤ bd2) (h : resolverOk full bd v r) :
    resolverOk (full ++ e) bd2 v r := by
  cases v with
  | unit => cases r <;> simp only [resolverOk] at h ⊢ <;> exact h
  | bool b => cases r <;> simp only [resolverOk] at h ⊢ <;> exact h
  | uint w x => cases r <;> simp only [resolverOk] at h ⊢ <;> exact h
  | sint w x => cases r <;> simp only [resolverOk] at h ⊢ <;> exact h
  | float w x => cases r <;> simp only [resolverOk] at h ⊢ <;> exact h
  | tuple vs =>
      cases r <;> simp only [resolverOk] at h ⊢ <;> try exact h
      exact resolverOkList_mono e hbd h
  | array t vs =>
      cases r <;> simp only [resolverOk] at h ⊢ <;> try exact h
      exact resolverOkList_mono e hbd h
  | opt t vo =>
      cases r <;> simp only [resolverOk] at h ⊢ <;> try exact h
      exact resolverOkOpt_mono e hbd h
  | boxed v =>
      cases r <;> simp only [resolverOk] at h ⊢ <;> try exact h
      exact ⟨le_trans h.1 hbd, readVal_append e h.2⟩
  | vec t vs =>
      cases r <;> simp only [resolverOk] at h ⊢ <;> try exact h
      exact ⟨le_trans h.1 hbd, h.2.1, readElems_append e h.2.2⟩
  | str s =>
      cases r <;> simp only [resolverOk] at h ⊢ <;> try exact h
      exact ⟨le_trans h.1 hbd, h.2.1, readBytesAt_append e h.2.2⟩
termination_by (sizeOf v, 0)

theorem resolverOkList_mono {full : List Byte} (e : List Byte) {bd bd2 : Nat}
    {vs : List Value} {rs : List Resolver} (hbd : bd ≤ bd2)
    (h : resolverOkList full bd vs rs) : resolverOkList (full ++ e) bd2 vs rs := by
  cases vs with
  | nil => cases rs <;> simp only [resolverOkList] at h ⊢ <;> exact h
  | cons v vs =>
      cases rs <;> simp only [resolverOkList] at h ⊢ <;> try exact h
      exact ⟨resolverOk_mono e hbd h.1, resolverOkList_mono e hbd h.2⟩
termination_by (sizeOf vs, 0)

theorem resolverOkOpt_mono {full : List Byte} (e : List Byte) {bd bd2 : Nat}
    {vo : Option Value} {ro : Option Resolver} (hbd : bd ≤ bd2)
    (h : resolverOkOpt full bd vo ro) : resolverOkOpt (full ++ e) bd2 vo ro := by
  cases vo with
  | none => cases ro <;> simp only [resolverOkOpt] at h ⊢ <;> exact h
  | some v =>
      cases ro <;> simp only [resolverOkOpt] at h ⊢ <;> try exact h
      exact resolverOk_mono e hbd h
termination_by (sizeOf vo, 0)

end

theorem encRel_length (selfPos target : Nat) : (encRel selfPos target).length = 8 := by
  simp [encRel, leBytes_length]

theorem fieldsBytes_length {full : List Byte} {bd : Nat} {vs : List Value}
    {rs : List Resolver} {p off : Nat}
    (hwf : wfList vs = true) (hok : resolverOkList full bd vs rs)
    (IH : ∀ u ∈ vs, ∀ r2 p2, wf u = true → resolverOk full bd u r2 →
      (valueBytes u r2 p2).length = tySize (ty u)) :
    (fieldsBytes vs rs p off).length = structEnd (tyList vs) off - off := by
  induction vs generalizing rs off with
  | nil =>
      cases rs <;> simp only [resolverOkList] at hok <;> simp [fieldsBytes, tyList, structEnd]
  | cons v vs ih =>
      cases rs with
      | nil => simp only [resolverOkList] at hok
      | cons r rs =>
          simp only [resolverOkList] at hok
          simp only [wfList, Bool.and_eq_true] at hwf
          simp only [fieldsBytes, tyList, structEnd, List.length_append,
            List.length_replicate]
          rw [IH v (by simp) r _ hwf.1 hok.1]
          rw [ih hwf.2 hok.2 (fun u hu => IH u (by simp [hu]))]
          have h1 := le_alignUp off (alignOf (ty v))
          have h2 := structEnd_ge (tyList vs) (alignUp off (alignOf (ty v)) + tySize (ty v))
          simp only [alignUp] at h1 h2 ⊢
          omega

theorem elemsBytes_length {full : List Byte} {bd : Nat} {t : Ty} {vs : List Value}
    {rs : List Resolver} {p : Nat}
    (hwf : wfHomog t vs = true) (hok : resolverOkList full bd vs rs)
    (IH : ∀ u ∈ vs, ∀ r2 p2, wf u = true → resolverOk full bd u r2 →
      (valueBytes u r2 p2).length = tySize (ty u)) :
    (elemsBytes vs rs p).length = vs.length * tySize t := by
  induction vs generalizing rs p with
  | nil => cases rs <;> simp only [resolverOkList] at hok <;> simp [elemsBytes]
  | cons v vs ih =>
      cases rs with
      | nil => simp only [resolverOkList] at hok
      | cons r rs =>
          simp only [resolverOkList] at hok
          simp only [wfHomog, Bool.and_eq_true] at hwf
          have hty : ty v = t := (tyEqB_iff _ _).mp hwf.1.2
          simp only [elemsBytes, List.length_append, List.length_cons]
          rw [IH v (by simp) r _ hwf.1.1 hok.1, ih hwf.2 hok.2 (fun u hu => IH u (by simp [hu])),
            hty]
          ring

theorem valueBytes_length {v : Value} {r : Resolver} {full : List Byte} {bd p : Nat}
    (hwf : wf v = true) (hok : resolverOk full bd v r) :
    (valueBytes v r p).length = tySize (ty v) := by
  match v, hwf, hok with
  | .unit, hwf, hok => simp [valueBytes, ty, tySize]
  | .bool b, hwf, hok => simp [valueBytes, ty, tySize]
  | .uint w x, hwf, hok => simp [valueBytes, ty, tySize, leBytes_length]
  | .sint w x, hwf, hok => simp [valueBytes, ty, tySize, leBytes_length]
  | .float w x, hwf, hok => simp [valueBytes, ty, tySize, leBytes_length]
  | .tuple vs, hwf, hok =>
      cases r <;> simp only [resolverOk] at hok
      rename_i rs
      simp only [wf] at hwf
      simp only [valueBytes, ty, List.length_append, List.length_replicate]
      rw [fieldsBytes_length hwf hok
        (fun u hu r2 p2 hw ho => valueBytes_length hw ho)]
      have h1 : structEnd (tyList vs) 0 ≤ tySize (.tuple (tyList vs)) := by
        simp only [tySize]
        exact le_alignUp _ _
      omega
  | .array t vs, hwf, hok =>
      cases r <;> simp only [resolverOk] at hok
      rename_i rs
      simp only [wf] at hwf
      simp only [valueBytes, ty, tySize]
      rw [elemsBytes_length hwf hok (fun u hu r2 p2 hw ho => valueBytes_length hw ho)]
  | .opt t vo, hwf, hok =>
      match r, hok with
      | .scalar, hok | .tuple _, hok | .array _, hok | .ref _, hok | .refLen _ _, hok =>
          simp only [resolverOk] at hok
      | .opt ro, hok =>
      simp only [resolverOk] at hok
      match vo, hwf, hok with
      | .none, hwf, hok =>
          simp only [valueBytes, ty, List.length_cons, List.length_replicate]
          have h1 := optPayloadOff_pos t
          have h2 := optPayloadOff_add_le t
          omega
      | .some v2, hwf, hok =>
          cases ro with
          | none => simp only [resolverOkOpt] at hok
          | some r2 =>
              simp only [resolverOkOpt] at hok
              simp only [wf, Bool.and_eq_true] at hwf
              have hty : ty v2 = t := (tyEqB_iff _ _).mp hwf.2
              simp only [valueBytes, ty, List.length_cons, List.length_append,
                List.length_replicate]
              rw [valueBytes_length hwf.1 hok]
              have h1 := optPayloadOff_pos t
              have h2 := optPayloadOff_add_le t
              rw [hty]
              omega
  | .boxed v2, hwf, hok =>
      cases r <;> simp only [resolverOk] at hok
      simp [valueBytes, ty, tySize, encRel_length]
  | .vec t vs, hwf, hok =>
      cases r <;> simp only [resolverOk] at hok
      simp [valueBytes, ty, tySize, encRel_length, leBytes_length]
  | .str s, hwf, hok =>
      cases r <;> simp only [resolverOk] at hok
      simp [valueBytes, ty, tySize, encRel_length, leBytes_length]
termination_by sizeOf v
decreasing_by
  all_goals simp_wf
  all_goals first
    | omega
    | (have h9 := List.sizeOf_lt_of_mem hu; omega)

theorem pow256 (w : Nat) : (256 : Nat) ^ w = 2 ^ (8 * w) := by
  rw [show (256 : Nat) = 2 ^ 8 by norm_num, ← pow_mul]

theorem decodeSigned_leVal {w : Nat} {v : Int} (hw : 0 < w)
    (hlo : -(2 : Int) ^ (8 * w - 1) ≤ v) (hhi : v < (2 : Int) ^ (8 * w - 1)) :
    decodeSigned w (leVal (leBytes w (v % (2 : Int) ^ (8 * w)).toNat)) = v := by
  have hM2 : (2 : Int) ^ (8 * w) = 2 * 2 ^ (8 * w - 1) := by
    rw [← pow_succ']
    congr 1
    omega
  have hMpos : (0 : Int) < 2 ^ (8 * w) := by positivity
  have hXpos : (0 : Int) < 2 ^ (8 * w - 1) := by positivity
  have h0 : 0 ≤ v % 2 ^ (8 * w) := Int.emod_nonneg v (ne_of_gt hMpos)
  have h1 : v % 2 ^ (8 * w) < 2 ^ (8 * w) := Int.emod_lt_of_pos v hMpos
  have hchar : v % 2 ^ (8 * w) = v ∨ v % 2 ^ (8 * w) = v + 2 ^ (8 * w) := by
    rcases le_or_lt 0 v with hv | hv
    · left
      exact Int.emod_eq_of_lt hv (by omega)
    · right
      have h3 : (v + 2 ^ (8 * w) * 1) % 2 ^ (8 * w) = v % 2 ^ (8 * w) :=
        Int.add_mul_emod_self_left v (2 ^ (8 * w)) 1
      rw [mul_one] at h3
      rw [← h3]
      exact Int.emod_eq_of_lt (by omega) (by omega)
  have hlt : (v % 2 ^ (8 * w)).toNat < 256 ^ w := by
    rw [pow256]
    have hcast : ((2 ^ (8 * w) : Nat) : Int) = 2 ^ (8 * w) := by push_cast; ring
    omega
  rw [leVal_leBytes hlt]
  unfold decodeSigned
  have hcast1 : ((2 ^ (8 * w - 1) : Nat) : Int) = 2 ^ (8 * w - 1) := by push_cast; ring
  split
  · rename_i hsplit
    omega
  · rename_i hsplit
    omega

theorem resolveRel_leVal {selfPos target : Nat} (h1 : target ≤ selfPos)
    (h2 : selfPos - target < 2 ^ 63) :
    toNatOpt (resolveRel selfPos (leVal (encRel selfPos target))) = some target := by
  unfold encRel
  rw [leVal_leBytes (by
    have h3 : (256 : Nat) ^ 8 = 2 ^ 64 := by norm_num
    rw [h3]
    exact Nat.mod_lt _ (by norm_num))]
  unfold resolveRel decodeOffset toNatOpt
  split
  · rename_i hsplit
    rw [if_pos (by omega)]
    simp only [Option.some.injEq]
    omega
  · rename_i hsplit
    rw [if_pos (by omega)]
    simp only [Option.some.injEq]
    omega

theorem readBytesAt_left {full l1 l2 : List Byte} {P : Nat}
    (h : readBytesAt full P (l1 ++ l2).length = some (l1 ++ l2)) :
    readBytesAt full P l1.length = some l1 := by
  have h2 := readBytesAt_sub h 0 l1.length (by simp)
  simpa using h2

theorem readBytesAt_right {full l1 l2 : List Byte} {P : Nat}
    (h : readBytesAt full P (l1 ++ l2).length = some (l1 ++ l2)) :
    readBytesAt full (P + l1.length) l2.length = some l2 := by
  have h2 := readBytesAt_sub h l1.length l2.length (by simp)
  rw [List.drop_left, List.take_length] at h2
  exact h2

theorem readElems_of_bytes {full : List Byte} {bd : Nat} {t : Ty} {vs : List Value}
    {rs : List Resolver} {p : Nat}
    (hwf : wfHomog t vs = true) (hok : resolverOkList full bd vs rs) (hbd : bd ≤ p)
    (hlt : p + (elemsBytes vs rs p).length < 2 ^ 63)
    (hbytes : readBytesAt full p (elemsBytes vs rs p).length = some (elemsBytes vs rs p))
    (IH : ∀ u ∈ vs, ∀ r2 p2, wf u = true → resolverOk full bd u r2 → bd ≤ p2 →
      p2 + tySize (ty u) < 2 ^ 63 →
      readBytesAt full p2 (tySize (ty u)) = some (valueBytes u r2 p2) →
      readVal (ty u) full p2 = some u) :
    readElems t vs.length full p = some vs := by
  induction vs generalizing rs p with
  | nil => simp [readElems]
  | cons v vs ih =>
      cases rs with
      | nil => simp only [resolverOkList] at hok
      | cons r rs =>
          simp only [resolverOkList] at hok
          simp only [wfHomog, Bool.and_eq_true] at hwf
          have hty : ty v = t := (tyEqB_iff _ _).mp hwf.1.2
          have hlen1 : (valueBytes v r p).length = tySize (ty v) :=
            valueBytes_length hwf.1.1 hok.1
          simp only [elemsBytes] at hbytes hlt
          have hhead := readBytesAt_left hbytes
          have htail := readBytesAt_right hbytes
          simp only [List.length_append, hlen1] at hlt
          rw [hlen1] at hhead htail
          have hv : readVal (ty v) full p = some v :=
            IH v (by simp) r p hwf.1.1 hok.1 hbd (by omega) hhead
          have hvs : readElems t vs.length full (p + tySize (ty v)) = some vs :=
            ih hwf.2 hok.2 (by omega) (by omega) htail
              (fun u hu r2 p2 => IH u (by simp [hu]) r2 p2)
          rw [hty] at hv hvs
          simp only [List.length_cons, readElems]
          exact Option.bind_eq_some.mpr ⟨v, hv,
            Option.bind_eq_some.mpr ⟨vs, hvs, rfl⟩⟩

theorem readFields_of_bytes {full : List Byte} {bd : Nat} {vs : List Value}
    {rs : List Resolver} {p off : Nat}
    (hwf : wfList vs = true) (hok : resolverOkList full bd vs rs) (hbd : bd ≤ p)
    (hlt : p + off + (fieldsBytes vs rs p off).length < 2 ^ 63)
    (hbytes : readBytesAt full (p + off) (fieldsBytes vs rs p off).length
      = some (fieldsBytes vs rs p off))
    (IH : ∀ u ∈ vs, ∀ r2 p2, wf u = true → resolverOk full bd u r2 → bd ≤ p2 →
      p2 + tySize (ty u) < 2 ^ 63 →
      readBytesAt full p2 (tySize (ty u)) = some (valueBytes u r2 p2) →
      readVal (ty u) full p2 = some u) :
    readFields (tyList vs) full p off = some vs := by
  induction vs generalizing rs off with
  | nil => simp [tyList, readFields]
  | cons v vs ih =>
      cases rs with
      | nil => simp only [resolverOkList] at hok
      | cons r rs =>
          simp only [resolverOkList] at hok
          simp only [wfList, Bool.and_eq_true] at hwf
          have hlen1 : (valueBytes v r (p + alignUp off (alignOf (ty v)))).length
              = tySize (ty v) := valueBytes_length hwf.1 hok.1
          simp only [fieldsBytes] at hbytes hlt
          rw [List.append_assoc] at hbytes hlt
          have heq : p + off + (List.replicate (padLen off (alignOf (ty v))) (0 : Byte)).length
              = p + alignUp off (alignOf (ty v)) := by
            simp only [List.length_replicate, alignUp]
            omega
          have hmid0 := readBytesAt_right hbytes
          rw [heq] at hmid0
          have hmid := readBytesAt_left hmid0
          have htail := readBytesAt_right hmid0
          simp only [List.length_append, List.length_replicate, hlen1] at hlt
          rw [hlen1] at hmid htail
          have hv : readVal (ty v) full (p + alignUp off (alignOf (ty v))) = some v :=
            IH v (by simp) r _ hwf.1 hok.1 (by have := le_alignUp off (alignOf (ty v)); omega)
              (by simp only [alignUp] at hlt ⊢; omega) hmid
          have htail2 : readBytesAt full
              (p + (alignUp off (alignOf (ty v)) + tySize (ty v)))
              (fieldsBytes vs rs p (alignUp off (alignOf (ty v)) + tySize (ty v))).length
              = some (fieldsBytes vs rs p (alignUp off (alignOf (ty v)) + tySize (ty v))) := by
            rw [← Nat.add_assoc]
            exact htail
          have hvs : readFields (tyList vs) full p
              (alignUp off (alignOf (ty v)) + tySize (ty v)) = some vs :=
            ih hwf.2 hok.2 (by simp only [alignUp] at hlt ⊢; omega) htail2
              (fun u hu r2 p2 => IH u (by simp [hu]) r2 p2)
          simp only [tyList, readFields]
          exact Option.bind_eq_some.mpr ⟨v, hv,
            Option.bind_eq_some.mpr ⟨vs, hvs, rfl⟩⟩

/-- Reading back what was laid out: if the inline bytes of a well-formed value
sit at position `p` of the region and the value's resolver is valid for that
region, the archived value reads back equal to the original (§8 round-trip
properties; the heart of the zero-copy contract §1). -/
theorem readVal_of_bytes {v : Value} {r : Resolver} {full : List Byte} {bd p : Nat}
    (hwf : wf v = true) (hok : resolverOk full bd v r) (hbd : bd ≤ p)
    (hlt : p + tySize (ty v) < 2 ^ 63)
    (hbytes : readBytesAt full p (tySize (ty v)) = some (valueBytes v r p)) :
    readVal (ty v) full p = some v := by
  match v, hwf, hok with
  | .unit, hwf, hok => simp [ty, readVal]
  | .bool b, hwf, hok =>
      simp only [ty, tySize, valueBytes] at hbytes ⊢
      simp only [readVal]
      refine Option.bind_eq_some.mpr ⟨_, hbytes, ?_⟩
      cases b <;> simp
  | .uint w x, hwf, hok =>
      simp only [wf, Bool.and_eq_true, decide_eq_true_eq] at hwf
      simp only [ty, tySize, valueBytes] at hbytes ⊢
      simp only [readVal]
      exact Option.map_eq_some'.mpr ⟨_, hbytes, by rw [leVal_leBytes hwf.2]⟩
  | .sint w x, hwf, hok =>
      simp only [wf, Bool.and_eq_true, decide_eq_true_eq] at hwf
      simp only [ty, tySize, valueBytes] at hbytes ⊢
      simp only [readVal]
      exact Option.map_eq_some'.mpr ⟨_, hbytes,
        by rw [decodeSigned_leVal hwf.1.1 hwf.1.2 hwf.2]⟩
  | .float w x, hwf, hok =>
      simp only [wf, Bool.and_eq_true, decide_eq_true_eq] at hwf
      simp only [ty, tySize, valueBytes] at hbytes ⊢
      simp only [readVal]
      exact Option.map_eq_some'.mpr ⟨_, hbytes, by rw [leVal_leBytes hwf.2]⟩
  | .tuple vs, hwf, hok =>
      match r, hok with
      | .scalar, hok | .array _, hok | .opt _, hok | .ref _, hok | .refLen _ _, hok =>
          simp only [resolverOk] at hok
      | .tuple rs, hok =>
      simp only [resolverOk] at hok
      simp only [wf] at hwf
      have hfl : (fieldsBytes vs rs p 0).length = structEnd (tyList vs) 0 - 0 :=
        fieldsBytes_length hwf hok (fun u hu r2 p2 hw ho => valueBytes_length hw ho)
      have hse := structEnd_ge (tyList vs) 0
      have hsz : structEnd (tyList vs) 0 ≤ tySize (.tuple (tyList vs)) := by
        simp only [tySize]
        exact le_alignUp _ _
      simp only [ty, valueBytes] at hbytes ⊢
      have hlen2 : (fieldsBytes vs rs p 0
          ++ List.replicate (tySize (.tuple (tyList vs)) - structEnd (tyList vs) 0)
            (0 : Byte)).length = tySize (.tuple (tyList vs)) := by
        simp only [List.length_append, List.length_replicate, hfl]
        omega
      have hbytes2 : readBytesAt full p (fieldsBytes vs rs p 0
          ++ List.replicate (tySize (.tuple (tyList vs)) - structEnd (tyList vs) 0)
            (0 : Byte)).length
          = some (fieldsBytes vs rs p 0
            ++ List.replicate (tySize (.tuple (tyList vs)) - structEnd (tyList vs) 0)
              (0 : Byte)) := by
        rw [hlen2]
        exact hbytes
      have hfields := readBytesAt_left hbytes2
      simp only [readVal]
      refine Option.map_eq_some'.mpr ⟨vs, ?_, rfl⟩
      have h0 : readBytesAt full (p + 0) (fieldsBytes vs rs p 0).length
          = some (fieldsBytes vs rs p 0) := by
        rw [Nat.add_zero]
        exact hfields
      exact readFields_of_bytes hwf hok hbd
        (by simp only [ty] at hlt; rw [hfl]; omega) h0
        (fun u hu r2 p2 hw ho hb hl hby => readVal_of_bytes hw ho hb hl hby)
  | .array t vs, hwf, hok =>
      match r, hok with
      | .scalar, hok | .tuple _, hok | .opt _, hok | .ref _, hok | .refLen _ _, hok =>
          simp only [resolverOk] at hok
      | .array rs, hok =>
      simp only [resolverOk] at hok
      simp only [wf] at hwf
      have hel : (elemsBytes vs rs p).length = vs.length * tySize t :=
        elemsBytes_length hwf hok (fun u hu r2 p2 hw ho => valueBytes_length hw ho)
      simp only [ty, tySize, valueBytes] at hbytes hlt ⊢
      rw [← hel] at hbytes hlt
      simp only [readVal]
      refine Option.map_eq_some'.mpr ⟨vs, ?_, rfl⟩
      exact readElems_of_bytes hwf hok hbd hlt hbytes
        (fun u hu r2 p2 hw ho hb hl hby => readVal_of_bytes hw ho hb hl hby)
  | .opt t .none, hwf, hok =>
      match r, hok with
      | .scalar, hok | .tuple _, hok | .array _, hok | .ref _, hok | .refLen _ _, hok =>
          simp only [resolverOk] at hok
      | .opt ro, hok =>
      simp only [resolverOk] at hok
      have hsz1 := optPayloadOff_pos t
      have hsz2 := optPayloadOff_add_le t
      simp only [ty, valueBytes] at hbytes ⊢
      have htag := readBytesAt_sub hbytes 0 1 (by omega)
      rw [Nat.add_zero] at htag
      simp only [List.drop_zero, List.take_cons_succ, List.take_zero] at htag
      simp only [readVal]
      refine Option.bind_eq_some.mpr ⟨_, htag, ?_⟩
      simp
  | .opt t (.some v2), hwf, hok =>
      match r, hok with
      | .scalar, hok | .tuple _, hok | .array _, hok | .ref _, hok | .refLen _ _, hok =>
          simp only [resolverOk] at hok
      | .opt ro, hok =>
      simp only [resolverOk] at hok
      have hsz1 := optPayloadOff_pos t
      have hsz2 := optPayloadOff_add_le t
      match ro, hok with
      | .none, hok => simp only [resolverOkOpt] at hok
      | .some r2, hok =>
      simp only [resolverOkOpt] at hok
      simp only [wf, Bool.and_eq_true] at hwf
      have hty : ty v2 = t := (tyEqB_iff _ _).mp hwf.2
      have hlenB : (valueBytes v2 r2 (p + optPayloadOff t)).length = tySize (ty v2) :=
        valueBytes_length hwf.1 hok
      simp only [ty, valueBytes] at hbytes ⊢
      have htag := readBytesAt_sub hbytes 0 1 (by omega)
      rw [Nat.add_zero] at htag
      simp only [List.drop_zero, List.take_cons_succ, List.take_zero] at htag
      have hpay := readBytesAt_sub hbytes (optPayloadOff t) (tySize (ty v2)) (by
        rw [hty]
        exact hsz2)
      have hre : ((1 : Byte) :: (List.replicate (optPayloadOff t - 1) (0 : Byte)
          ++ valueBytes v2 r2 (p + optPayloadOff t)
          ++ List.replicate
            (tySize (.opt t) - (optPayloadOff t + tySize (ty v2))) (0 : Byte)))
          = (((1 : Byte) :: List.replicate (optPayloadOff t - 1) (0 : Byte))
            ++ (valueBytes v2 r2 (p + optPayloadOff t)
              ++ List.replicate
                (tySize (.opt t) - (optPayloadOff t + tySize (ty v2))) (0 : Byte))) := by
        simp
      rw [hre] at hpay
      have hdroplen : ((1 : Byte) :: List.replicate (optPayloadOff t - 1) (0 : Byte)).length
          = optPayloadOff t := by
        simp only [List.length_cons, List.length_replicate]
        omega
      rw [List.drop_left' hdroplen, List.take_append_of_le_length (le_of_eq hlenB.symm),
        ← hlenB, List.take_length] at hpay
      rw [hlenB] at hpay
      have hv2 : readVal (ty v2) full (p + optPayloadOff t) = some v2 :=
        readVal_of_bytes hwf.1 hok (by omega)
          (by rw [hty]; simp only [ty] at hlt; omega) hpay
      simp only [readVal]
      refine Option.bind_eq_some.mpr ⟨_, htag, ?_⟩
      rw [if_neg (by simp), if_pos rfl]
      rw [hty] at hv2
      exact Option.map_eq_some'.mpr ⟨v2, hv2, rfl⟩
  | .boxed v2, hwf, hok =>
      match r, hok with
      | .scalar, hok | .tuple _, hok | .array _, hok | .opt _, hok | .refLen _ _, hok =>
          simp only [resolverOk] at hok
      | .ref target, hok =>
      simp only [resolverOk] at hok
      simp only [ty, tySize, valueBytes] at hbytes hlt ⊢
      simp only [readVal]
      refine Option.bind_eq_some.mpr ⟨_, hbytes, ?_⟩
      refine Option.bind_eq_some.mpr ⟨target,
        resolveRel_leVal (le_trans hok.1 hbd) (by omega), ?_⟩
      exact Option.map_eq_some'.mpr ⟨v2, hok.2, rfl⟩
  | .vec t vs, hwf, hok =>
      match r, hok with
      | .scalar, hok | .tuple _, hok | .array _, hok | .opt _, hok | .ref _, hok =>
          simp only [resolverOk] at hok
      | .refLen target len, hok =>
      simp only [resolverOk] at hok
      simp only [wf, Bool.and_eq_true, decide_eq_true_eq] at hwf
      simp only [ty, tySize, valueBytes] at hbytes hlt ⊢
      have hlen2 : (encRel p target ++ leBytes 8 len).length = 16 := by
        simp [encRel_length, leBytes_length]
      rw [← hlen2] at hbytes
      have hpt := readBytesAt_left hbytes
      have hln := readBytesAt_right hbytes
      rw [encRel_length] at hpt hln
      rw [leBytes_length] at hln
      simp only [readVal]
      refine Option.bind_eq_some.mpr ⟨_, hpt, ?_⟩
      refine Option.bind_eq_some.mpr ⟨_, hln, ?_⟩
      refine Option.bind_eq_some.mpr ⟨target,
        resolveRel_leVal (le_trans hok.1 hbd) (by omega), ?_⟩
      have hlen3 : len < 256 ^ 8 := by
        have h4 : (256 : Nat) ^ 8 = 2 ^ 64 := by norm_num
        omega
      rw [leVal_leBytes hlen3]
      exact Option.map_eq_some'.mpr ⟨vs, hok.2.2, rfl⟩
  | .str s, hwf, hok =>
      match r, hok with
      | .scalar, hok | .tuple _, hok | .array _, hok | .opt _, hok | .ref _, hok =>
          simp only [resolverOk] at hok
      | .refLen target len, hok =>
      simp only [resolverOk] at hok
      simp only [wf, Bool.and_eq_true, decide_eq_true_eq] at hwf
      simp only [ty, tySize, valueBytes] at hbytes hlt ⊢
      have hlen2 : (encRel p target ++ leBytes 8 len).length = 16 := by
        simp [encRel_length, leBytes_length]
      rw [← hlen2] at hbytes
      have hpt := readBytesAt_left hbytes
      have hln := readBytesAt_right hbytes
      rw [encRel_length] at hpt hln
      rw [leBytes_length] at hln
      simp only [readVal]
      refine Option.bind_eq_some.mpr ⟨_, hpt, ?_⟩
      refine Option.bind_eq_some.mpr ⟨_, hln, ?_⟩
      refine Option.bind_eq_some.mpr ⟨target,
        resolveRel_leVal (le_trans hok.1 hbd) (by omega), ?_⟩
      have hlen3 : len < 256 ^ 8 := by
        have h4 : (256 : Nat) ^ 8 = 2 ^ 64 := by norm_num
        omega
      rw [leVal_leBytes hlen3]
      exact Option.bind_eq_some.mpr ⟨s, hok.2.2, rfl⟩
termination_by sizeOf v
decreasing_by
  all_goals simp_wf
  all_goals first
    | omega
    | (have h9 := List.sizeOf_lt_of_mem (show _ ∈ _ by assumption); omega)

theorem except_bind_ok {ε α β : Type} {x : Except ε α} {f : α → Except ε β} {s : β}
    (h : (x >>= f) = .ok s) : ∃ a, x = .ok a ∧ f a = .ok s := by
  cases x with
  | error e => exact Except.noConfusion (show (Except.error e : Except ε β) = .ok s from h)
  | ok a => exact ⟨a, rfl, h⟩

theorem except_map_ok {ε α β : Type} {x : Except ε α} {f : α → β} {s : β}
    (h : x.map f = .ok s) : ∃ a, x = .ok a ∧ f a = s := by
  cases x with
  | error e => exact Except.noConfusion (show (Except.error e : Except ε β) = .ok s from h)
  | ok a =>
      refine ⟨a, rfl, ?_⟩
      have h2 : (Except.ok (f a) : Except ε β) = .ok s := h
      cases h2
      rfl

theorem write_ok {b : ArchiveBuffer} {bs : List Byte} {q : Nat} {b2 : ArchiveBuffer}
    (h : b.write bs = .ok (q, b2)) :
    q = b.data.length ∧ b2.data = b.data ++ bs ∧ b2.cap = b.cap
      ∧ b2.data.length ≤ b.cap := by
  unfold ArchiveBuffer.write at h
  split at h
  · rename_i hle
    cases h
    refine ⟨rfl, rfl, rfl, ?_⟩
    simp only [List.length_append]
    omega
  · cases h

theorem align_ok {b : ArchiveBuffer} {a : Nat} {b2 : ArchiveBuffer}
    (h : b.align a = .ok b2) :
    b2.data = b.data ++ List.replicate (padLen b.data.length a) 0 ∧ b2.cap = b.cap
      ∧ b2.data.length ≤ b.cap ∧ (0 < a → b2.data.length % a = 0) := by
  unfold ArchiveBuffer.align at h
  obtain ⟨⟨q, b3⟩, hw, h2⟩ := except_map_ok h
  obtain ⟨hq, hdata, hcap, hle⟩ := write_ok hw
  cases h2
  refine ⟨hdata, hcap, by rw [hdata] at hle ⊢; exact hle, ?_⟩
  intro ha
  rw [hdata]
  have h3 : (b.data ++ List.replicate (padLen b.pos a) 0).length = alignUp b.data.length a := by
    simp only [List.length_append, List.length_replicate, alignUp, ArchiveBuffer.pos]
  rw [h3]
  exact alignUp_mod _ ha

theorem wfList_of_wfHomog {t : Ty} {vs : List Value} (h : wfHomog t vs = true) :
    wfList vs = true := by
  induction vs with
  | nil => rfl
  | cons v vs ih =>
      simp only [wfHomog, Bool.and_eq_true] at h
      simp only [wfList, Bool.and_eq_true]
      exact ⟨h.1.1, ih h.2⟩

mutual

/-- Phase one of archiving preserves the session invariants: the sink only
grows, the capacity is unchanged, and the recorded resolver stays valid for
every extension of the buffer (§4.4: children before parent, §3 lifecycle:
the sink grows only by appending). -/
theorem serializeChildren_ok {v : Value} {b : ArchiveBuffer} {r : Resolver}
    {b1 : ArchiveBuffer} (hwf : wf v = true) (hcap : b.cap < 2 ^ 63)
    (hinv : b.data.length ≤ b.cap) (h : serializeChildren v b = .ok (r, b1)) :
    b1.cap = b.cap ∧ b1.data.length ≤ b.cap ∧ (∃ ext, b1.data = b.data ++ ext)
      ∧ ∀ e, resolverOk (b1.data ++ e) b1.data.length v r := by
  match v, hwf, h with
  | .unit, hwf, h =>
      simp only [serializeChildren, Except.ok.injEq, Prod.mk.injEq] at h
      obtain ⟨hr, hb⟩ := h
      subst hr
      subst hb
      exact ⟨rfl, hinv, ⟨[], by simp⟩, fun e => by simp [resolverOk]⟩
  | .bool b0, hwf, h =>
      simp only [serializeChildren, Except.ok.injEq, Prod.mk.injEq] at h
      obtain ⟨hr, hb⟩ := h
      subst hr
      subst hb
      exact ⟨rfl, hinv, ⟨[], by simp⟩, fun e => by simp [resolverOk]⟩
  | .uint w x, hwf, h =>
      simp only [serializeChildren, Except.ok.injEq, Prod.mk.injEq] at h
      obtain ⟨hr, hb⟩ := h
      subst hr
      subst hb
      exact ⟨rfl, hinv, ⟨[], by simp⟩, fun e => by simp [resolverOk]⟩
  | .sint w x, hwf, h =>
      simp only [serializeChildren, Except.ok.injEq, Prod.mk.injEq] at h
      obtain ⟨hr, hb⟩ := h
      subst hr
      subst hb
      exact ⟨rfl, hinv, ⟨[], by simp⟩, fun e => by simp [resolverOk]⟩
  | .float w x, hwf, h =>
      simp only [serializeChildren, Except.ok.injEq, Prod.mk.injEq] at h
      obtain ⟨hr, hb⟩ := h
      subst hr
      subst hb
      exact ⟨rfl, hinv, ⟨[], by simp⟩, fun e => by simp [resolverOk]⟩
  | .tuple vs, hwf, h =>
      simp only [serializeChildren] at h
      obtain ⟨⟨rs0, b2⟩, hs, h2⟩ := except_map_ok h
      simp only [Prod.mk.injEq] at h2
      obtain ⟨hr, hb⟩ := h2
      subst hr
      subst hb
      simp only [wf] at hwf
      obtain ⟨hc, hl, hpre, hok⟩ := serializeList_ok hwf hcap hinv hs
      exact ⟨hc, hl, hpre, fun e => by simp only [resolverOk]; exact hok e⟩
  | .array t vs, hwf, h =>
      simp only [serializeChildren] at h
      obtain ⟨⟨rs0, b2⟩, hs, h2⟩ := except_map_ok h
      simp only [Prod.mk.injEq] at h2
      obtain ⟨hr, hb⟩ := h2
      subst hr
      subst hb
      simp only [wf] at hwf
      obtain ⟨hc, hl, hpre, hok⟩ := serializeList_ok (wfList_of_wfHomog hwf) hcap hinv hs
      exact ⟨hc, hl, hpre, fun e => by simp only [resolverOk]; exact hok e⟩
  | .opt t .none, hwf, h =>
      simp only [serializeChildren, Except.ok.injEq, Prod.mk.injEq] at h
      obtain ⟨hr, hb⟩ := h
      subst hr
      subst hb
      exact ⟨rfl, hinv, ⟨[], by simp⟩, fun e => by simp [resolverOk, resolverOkOpt]⟩
  | .opt t (.some v2), hwf, h =>
      simp only [serializeChildren] at h
      obtain ⟨⟨r2, b2⟩, hs, h2⟩ := except_map_ok h
      simp only [Prod.mk.injEq] at h2
      obtain ⟨hr, hb⟩ := h2
      subst hr
      subst hb
      simp only [wf, Bool.and_eq_true] at hwf
      obtain ⟨hc, hl, hpre, hok⟩ := serializeChildren_ok hwf.1 hcap hinv hs
      exact ⟨hc, hl, hpre, fun e => by simp only [resolverOk, resolverOkOpt]; exact hok e⟩
  | .boxed v2, hwf, h =>
      simp only [serializeChildren] at h
      obtain ⟨⟨q, b2⟩, hs, h2⟩ := except_map_ok h
      simp only [Prod.mk.injEq] at h2
      obtain ⟨hr, hb⟩ := h2
      subst hr
      subst hb
      simp only [wf] at hwf
      obtain ⟨hc, hl, hpre, halgn, hsz, hread⟩ := archive_ok hwf hcap hinv hs
      refine ⟨hc, hl, hpre, fun e => ?_⟩
      simp only [resolverOk]
      exact ⟨by omega, hread e⟩
  | .vec t vs, hwf, h =>
      simp only [serializeChildren] at h
      obtain ⟨⟨rs0, bL⟩, hs, h2⟩ := except_bind_ok h
      obtain ⟨bA, hal, h3⟩ := except_bind_ok h2
      obtain ⟨⟨q0, bW⟩, hw, h4⟩ := except_bind_ok h3
      simp only [Except.ok.injEq, Prod.mk.injEq] at h4
      obtain ⟨hr, hb⟩ := h4
      subst hr
      subst hb
      simp only [wf, Bool.and_eq_true, decide_eq_true_eq] at hwf
      obtain ⟨hcL, hlL, ⟨extL, hextL⟩, hokL⟩ :=
        serializeList_ok (wfList_of_wfHomog hwf.1) hcap hinv hs
      obtain ⟨hdA, hcA, hlA, hmodA⟩ := align_ok hal
      obtain ⟨hq0, hdW, hcW, hlW⟩ := write_ok hw
      simp only [ArchiveBuffer.pos] at hdW ⊢
      have hcap2 : bA.cap = b.cap := by rw [hcA, hcL]
      refine ⟨by rw [hcW, hcA, hcL], by rw [hcap2] at hlW; exact hlW,
        ⟨extL ++ (List.replicate (padLen bL.data.length (alignOf t)) 0
          ++ elemsBytes vs rs0 bA.data.length),
          by rw [hdW, hdA, hextL]; simp [List.append_assoc]⟩, fun e => ?_⟩
      simp only [resolverOk]
      refine ⟨by rw [hdW]; simp, trivial, ?_⟩
      have hfull : bL.data ++ (List.replicate (padLen bL.data.length (alignOf t)) 0
          ++ (elemsBytes vs rs0 bA.data.length ++ e)) = bW.data ++ e := by
        rw [hdW, hdA]
        simp [List.append_assoc]
      have hok2 := hokL (List.replicate (padLen bL.data.length (alignOf t)) 0
        ++ (elemsBytes vs rs0 bA.data.length ++ e))
      rw [hfull] at hok2
      have hbd2 : bL.data.length ≤ bA.data.length := by rw [hdA]; simp
      have hlen3 : bW.data.length = bA.data.length
          + (elemsBytes vs rs0 bA.data.length).length := by
        rw [hdW]
        simp
      have hlt2 : bA.data.length + (elemsBytes vs rs0 bA.data.length).length < 2 ^ 63 := by
        omega
      have hbytes2 : readBytesAt (bW.data ++ e) bA.data.length
          (elemsBytes vs rs0 bA.data.length).length
          = some (elemsBytes vs rs0 bA.data.length) := by
        have h9 := readBytesAt_exact bA.data (elemsBytes vs rs0 bA.data.length) e
        have h8 : bA.data ++ (elemsBytes vs rs0 bA.data.length ++ e) = bW.data ++ e := by
          rw [hdW]
          simp [List.append_assoc]
        rw [h8] at h9
        exact h9
      exact readElems_of_bytes hwf.1 hok2 hbd2 hlt2 hbytes2
        (fun u hu r2 p2 hw2 ho2 hb2 hl2 hby2 => readVal_of_bytes hw2 ho2 hb2 hl2 hby2)
  | .str s, hwf, h =>
      simp only [serializeChildren] at h
      obtain ⟨⟨q, b2⟩, hw, h2⟩ := except_bind_ok h
      simp only [Except.ok.injEq, Prod.mk.injEq] at h2
      obtain ⟨hr, hb⟩ := h2
      subst hr
      subst hb
      obtain ⟨hq, hd, hc, hl⟩ := write_ok hw
      subst hq
      refine ⟨hc, hl, ⟨s, hd⟩, fun e => ?_⟩
      simp only [resolverOk]
      refine ⟨by rw [hd]; simp, trivial, ?_⟩
      have h9 := readBytesAt_exact b.data s e
      have h8 : b.data ++ (s ++ e) = b2.data ++ e := by
        rw [hd]
        simp [List.append_assoc]
      rw [h8] at h9
      exact h9
termination_by (sizeOf v, 0)

theorem serializeList_ok {vs : List Value} {b : ArchiveBuffer} {rs : List Resolver}
    {b1 : ArchiveBuffer} (hwf : wfList vs = true) (hcap : b.cap < 2 ^ 63)
    (hinv : b.data.length ≤ b.cap) (h : serializeList vs b = .ok (rs, b1)) :
    b1.cap = b.cap ∧ b1.data.length ≤ b.cap ∧ (∃ ext, b1.data = b.data ++ ext)
      ∧ ∀ e, resolverOkList (b1.data ++ e) b1.data.length vs rs := by
  match vs, hwf, h with
  | [], hwf, h =>
      simp only [serializeList, Except.ok.injEq, Prod.mk.injEq] at h
      obtain ⟨hr, hb⟩ := h
      subst hr
      subst hb
      exact ⟨rfl, hinv, ⟨[], by simp⟩, fun e => by simp [resolverOkList]⟩
  | v :: vs, hwf, h =>
      simp only [serializeList] at h
      obtain ⟨⟨r0, bM⟩, hs1, h2⟩ := except_bind_ok h
      obtain ⟨⟨rs0, bF⟩, hs2, h3⟩ := except_bind_ok h2
      simp only [Except.ok.injEq, Prod.mk.injEq] at h3
      obtain ⟨hr, hb⟩ := h3
      subst hr
      subst hb
      simp only [wfList, Bool.and_eq_true] at hwf
      obtain ⟨hcM, hlM, ⟨extM, hextM⟩, hokM⟩ := serializeChildren_ok hwf.1 hcap hinv hs1
      obtain ⟨hcF, hlF, ⟨extF, hextF⟩, hokF⟩ := serializeList_ok hwf.2
        (by rw [hcM]; exact hcap) (by rw [hcM]; exact hlM) hs2
      refine ⟨by rw [hcF, hcM], by rw [hcM] at hlF; exact hlF,
        ⟨extM ++ extF, by rw [hextF, hextM]; simp [List.append_assoc]⟩, fun e => ?_⟩
      simp only [resolverOkList]
      constructor
      · have h5 := hokM extF
        rw [← hextF] at h5
        have hbd : bM.data.length ≤ bF.data.length := by rw [hextF]; simp
        exact resolverOk_mono e hbd h5
      · exact hokF e
termination_by (sizeOf vs, 0)

/-- Modelled from the spec, proved of the model: a successful `archive` call
returns an aligned position whose bytes, in the final buffer and any
extension of it, read back as the archived value (§4.4, §8). -/
theorem archive_ok {v : Value} {b : ArchiveBuffer} {p : Nat} {b1 : ArchiveBuffer}
    (hwf : wf v = true) (hcap : b.cap < 2 ^ 63) (hinv : b.data.length ≤ b.cap)
    (h : archive v b = .ok (p, b1)) :
    b1.cap = b.cap ∧ b1.data.length ≤ b.cap ∧ (∃ ext, b1.data = b.data ++ ext)
      ∧ p % alignOf (ty v) = 0 ∧ p + tySize (ty v) = b1.data.length
      ∧ ∀ e, readVal (ty v) (b1.data ++ e) p = some v := by
  simp only [archive] at h
  obtain ⟨⟨r0, bC⟩, hs, h2⟩ := except_bind_ok h
  obtain ⟨bA, hal, h3⟩ := except_bind_ok h2
  obtain ⟨⟨q0, bW⟩, hw, h4⟩ := except_bind_ok h3
  simp only [Except.ok.injEq, Prod.mk.injEq] at h4
  obtain ⟨hp, hb⟩ := h4
  subst hp
  subst hb
  obtain ⟨hcC, hlC, ⟨extC, hextC⟩, hokC⟩ := serializeChildren_ok hwf hcap hinv hs
  obtain ⟨hdA, hcA, hlA, hmodA⟩ := align_ok hal
  obtain ⟨hq0, hdW, hcW, hlW⟩ := write_ok hw
  simp only [ArchiveBuffer.pos] at hdW ⊢
  have hok0 := hokC []
  have hlenV : (valueBytes v r0 bA.data.length).length = tySize (ty v) :=
    valueBytes_length hwf hok0
  have hcap2 : bA.cap = b.cap := by rw [hcA, hcC]
  have hlen3 : bW.data.length = bA.data.length + tySize (ty v) := by
    rw [hdW]
    simp [hlenV]
  refine ⟨by rw [hcW, hcA, hcC], by rw [hcap2] at hlW; exact hlW,
    ⟨extC ++ (List.replicate (padLen bC.data.length (alignOf (ty v))) 0
      ++ valueBytes v r0 bA.data.length),
      by rw [hdW, hdA, hextC]; simp [List.append_assoc]⟩,
    hmodA (alignOf_pos (ty v)), by omega, fun e => ?_⟩
  have hfull : bC.data ++ (List.replicate (padLen bC.data.length (alignOf (ty v))) 0
      ++ (valueBytes v r0 bA.data.length ++ e)) = bW.data ++ e := by
    rw [hdW, hdA]
    simp [List.append_assoc]
  have hok2 := hokC (List.replicate (padLen bC.data.length (alignOf (ty v))) 0
    ++ (valueBytes v r0 bA.data.length ++ e))
  rw [hfull] at hok2
  have hbd2 : bC.data.length ≤ bA.data.length := by rw [hdA]; simp
  have hlt2 : bA.data.length + tySize (ty v) < 2 ^ 63 := by omega
  have hbytes2 : readBytesAt (bW.data ++ e) bA.data.length (tySize (ty v))
      = some (valueBytes v r0 bA.data.length) := by
    have h9 := readBytesAt_exact bA.data (valueBytes v r0 bA.data.length) e
    have h8 : bA.data ++ (valueBytes v r0 bA.data.length ++ e) = bW.data ++ e := by
      rw [hdW]
      simp [List.append_assoc]
    rw [h8, hlenV] at h9
    exact h9
  exact readVal_of_bytes hwf hok2 hbd2 hlt2 hbytes2
termination_by (sizeOf v, 1)

end

theorem ok_bind {ε α β : Type} (a : α) (f : α → Except ε β) :
    (Except.ok a : Except ε α) >>= f = f a := rfl

theorem error_bind {ε α β : Type} (e : ε) (f : α → Except ε β) :
    (Except.error e : Except ε α) >>= f = .error e := rfl

/-- Modelled from the spec: one archiving session writing a sequence of
values into the same sink, one after the other (§5 single-writer,
single-pass; §4.1).  An error aborts the rest of the session. -/
def archiveMany : List Value → ArchiveBuffer → Except ArchiveError (List Nat × ArchiveBuffer)
  | [], b => .ok ([], b)
  | v :: vs, b => do
      let (p, b1) ← archive v b
      let (ps, b2) ← archiveMany vs b1
      .ok (p :: ps, b2)

theorem write_overflow_iff (b : ArchiveBuffer) (bs : List Byte) :
    b.write bs = .error .overflow ↔ b.cap < b.data.length + bs.length := by
  unfold ArchiveBuffer.write
  split
  · rename_i hle
    constructor
    · intro h2
      cases h2
    · intro h2
      omega
  · rename_i hgt
    constructor
    · intro _
      omega
    · intro _
      rfl

theorem archiveMany_append (vs1 vs2 : List Value) (b : ArchiveBuffer) :
    archiveMany (vs1 ++ vs2) b = (archiveMany vs1 b).bind (fun x =>
      (archiveMany vs2 x.2).map (fun y => (x.1 ++ y.1, y.2))) := by
  induction vs1 generalizing b with
  | nil =>
      simp only [List.nil_append, archiveMany, Except.bind]
      cases h : archiveMany vs2 b with
      | error e => simp [Except.map]
      | ok x => simp [Except.map]
  | cons v vs1 ih =>
      simp only [List.cons_append, archiveMany]
      cases h : archive v b with
      | error e => simp [error_bind, Except.bind]
      | ok x =>
          obtain ⟨p, b1⟩ := x
          simp only [ok_bind, List.append_eq]
          rw [ih b1]
          cases h2 : archiveMany vs1 b1 with
          | error e => simp [Except.bind, error_bind]
          | ok y =>
              obtain ⟨ps, b2⟩ := y
              simp only [ok_bind, Except.bind]
              cases h3 : archiveMany vs2 b2 with
              | error e => rfl
              | ok z => rfl

theorem archiveMany_error_extend {vs1 : List Value} (vs2 : List Value) {b : ArchiveBuffer}
    {err : ArchiveError} (h : archiveMany vs1 b = .error err) :
    archiveMany (vs1 ++ vs2) b = .error err := by
  rw [archiveMany_append, h]
  rfl

theorem archiveMany_ok_le {vs : List Value} {b : ArchiveBuffer} {ps : List Nat}
    {b2 : ArchiveBuffer} (hwf : wfList vs = true) (hcap : b.cap < 2 ^ 63)
    (hinv : b.data.length ≤ b.cap) (h : archiveMany vs b = .ok (ps, b2)) :
    b2.cap = b.cap ∧ b2.data.length ≤ b.cap := by
  induction vs generalizing b ps with
  | nil =>
      simp only [archiveMany, Except.ok.injEq, Prod.mk.injEq] at h
      obtain ⟨h1, h2⟩ := h
      subst h2
      exact ⟨rfl, hinv⟩
  | cons v vs ih =>
      simp only [archiveMany] at h
      obtain ⟨⟨p, b1⟩, ha, h2⟩ := except_bind_ok h
      obtain ⟨⟨ps0, bF⟩, hm, h3⟩ := except_bind_ok h2
      simp only [Except.ok.injEq, Prod.mk.injEq] at h3
      obtain ⟨h4, h5⟩ := h3
      subst h5
      simp only [wfList, Bool.and_eq_true] at hwf
      obtain ⟨hc1, hl1, _, _, _, _⟩ := archive_ok hwf.1 hcap hinv ha
      obtain ⟨hc2, hl2⟩ := ih hwf.2 (by rw [hc1]; exact hcap) (by rw [hc1]; exact hl1) hm
      exact ⟨by rw [hc2, hc1], by rw [hc1] at hl2; exact hl2⟩

mutual

/-- The plain-layout values of the round-trip-scalars property: scalars of
every width, tuples, and fixed-size arrays (§8). -/
def isPlain : Value → Bool
  | .unit => true
  | .bool _ => true
  | .uint _ _ => true
  | .sint _ _ => true
  | .float _ _ => true
  | .tuple vs => isPlainList vs
  | .array _ vs => isPlainList vs
  | _ => false

/-- List form of `isPlain` (separate to keep the recursion structural). -/
def isPlainList : List Value → Bool
  | [] => true
  | v :: vs => isPlain v && isPlainList vs

end

/-- The unsized values that archive through the reference path: sequences
and text (§4.4 ArchiveRef). -/
def isUnsized : Value → Bool
  | .vec _ _ => true
  | .str _ => true
  | _ => false

/-- Containers and their compositions with optional values (§4.5,
§8 container transparency). -/
def isContainerComp : Value → Bool
  | .boxed _ => true
  | .vec _ _ => true
  | .str _ => true
  | .opt _ .none => true
  | .opt _ (.some v) => isContainerComp v
  | _ => false

theorem serializeChildren_vec_shape {t : Ty} {vs : List Value} {b : ArchiveBuffer}
    {x : Resolver × ArchiveBuffer} (h : serializeChildren (.vec t vs) b = .ok x) :
    ∃ base len, x.1 = .refLen base len := by
  simp only [serializeChildren] at h
  obtain ⟨y, _, h2⟩ := except_bind_ok h
  obtain ⟨b2, _, h3⟩ := except_bind_ok h2
  obtain ⟨z, _, h4⟩ := except_bind_ok h3
  have h5 : (Except.ok (Resolver.refLen b2.pos vs.length, z.2)
      : Except ArchiveError (Resolver × ArchiveBuffer)) = .ok x := h4
  cases h5
  exact ⟨_, _, rfl⟩

theorem serializeChildren_str_shape {s : List Byte} {b : ArchiveBuffer}
    {x : Resolver × ArchiveBuffer} (h : serializeChildren (.str s) b = .ok x) :
    ∃ base len, x.1 = .refLen base len := by
  simp only [serializeChildren] at h
  obtain ⟨y, _, h2⟩ := except_bind_ok h
  have h5 : (Except.ok (Resolver.refLen y.1 s.length, y.2)
      : Except ArchiveError (Resolver × ArchiveBuffer)) = .ok x := h2
  cases h5
  exact ⟨_, _, rfl⟩

/-- For unsized values the reference is the value's own inline form, so the
ArchiveRef entry point agrees with the Archive entry point: payload first,
then the reference, whose position is returned (§4.4). -/
theorem archive_ref_eq {v : Value} (hun : isUnsized v = true) (b : ArchiveBuffer) :
    archive_ref v b = archive v b := by
  match v, hun with
  | .vec t vs, _ =>
      simp only [archive_ref, archive]
      cases h : serializeChildren (.vec t vs) b with
      | error e => rfl
      | ok x =>
          obtain ⟨base, len, hr⟩ := serializeChildren_vec_shape h
          obtain ⟨r, b1⟩ := x
          simp only at hr
          subst hr
          rfl
  | .str s, _ =>
      simp only [archive_ref, archive]
      cases h : serializeChildren (.str s) b with
      | error e => rfl
      | ok x =>
          obtain ⟨base, len, hr⟩ := serializeChildren_str_shape h
          obtain ⟨r, b1⟩ := x
          simp only at hr
          subst hr
          rfl

theorem toNatOpt_eq {i : Int} {n : Nat} (h : toNatOpt i = some n) : i = n := by
  unfold toNatOpt at h
  split at h
  · rename_i hpos
    cases h
    omega
  · cases h

/-- Relocation invariance of relative-pointer resolution: shifting the whole
region by `base` shifts every resolved address by `base` (§4.3: correctness
depends only on the difference). -/
theorem resolveRel_shift (base selfPos n : Nat) :
    resolveRel (base + selfPos) n = (base : Int) + resolveRel selfPos n := by
  simp only [resolveRel]
  push_cast
  ring

/-- Modelled from the spec: the archived hash map (§4.6) — a fixed-capacity
open-addressing table: an array of slots holding resolved key/value pairs,
with empty slots marked by a sentinel (`none`), plus the stored entry count
for O(1) `len()`. -/
structure ArchivedHashMap (K V : Type) where
  slots : List (Option (K × V))
  size : Nat
deriving DecidableEq

/-- Modelled from the spec: the bucket count picked from the entry count and
a target load factor (§4.6 build); the convention fixed here is twice the
entry count (load factor one half). -/
def bucketCount (n : Nat) : Nat := 2 * n

/-- Modelled from the spec: one build-time insertion using the fixed probe
sequence alternative of §4.6 — linear probing from the key's primary bucket;
`fuel` bounds the probe sequence, and its exhaustion is the map-build
failure of §7. -/
def insertFrom {K V : Type} (slots : List (Option (K × V))) (i fuel : Nat)
    (k : K) (v : V) : Option (List (Option (K × V))) :=
  match fuel with
  | 0 => none
  | fuel + 1 =>
      match slots.get? i with
      | some .none => some (slots.set i (some (k, v)))
      | some (.some _) => insertFrom slots ((i + 1) % slots.length) fuel k v
      | .none => none

/-- Modelled from the spec: building the archived table from a finite mapping
(§4.6): pick the bucket count, then place every entry in a resolved slot with
the deterministic probe rule. -/
def buildHashMap {K V : Type} (hash : K → Nat) (entries : List (K × V)) :
    Option (ArchivedHashMap K V) :=
  ((entries.foldl
    (fun acc kv => acc.bind (fun slots =>
      insertFrom slots (hash kv.1 % bucketCount entries.length)
        (bucketCount entries.length) kv.1 kv.2))
    (some (List.replicate (bucketCount entries.length) none))).map
    (fun slots => ⟨slots, entries.length⟩))

/-- Modelled from the spec: read-time lookup replaying the build-time probe
rule against the raw slots, comparing each archived key directly against the
query key — the query may be of a different, borrowed type, and no native
copy of key or value is materialized (§4.6 zero-copy equality). -/
def probeFind {K V Q : Type} (keyEq : K → Q → Bool) (slots : List (Option (K × V)))
    (i fuel : Nat) (q : Q) : Option V :=
  match fuel with
  | 0 => none
  | fuel + 1 =>
      match slots.get? i with
      | some .none => none
      | some (.some kv) =>
          if keyEq kv.1 q then some kv.2
          else probeFind keyEq slots ((i + 1) % slots.length) fuel q
      | .none => none

/-- Indexed lookup: compute the query's hash, replay the probe rule, land on
the matching slot or on proof of absence (§4.6 `contains_key`/index). -/
def ArchivedHashMap.getQ {K V Q : Type} (hash : Q → Nat) (keyEq : K → Q → Bool)
    (m : ArchivedHashMap K V) (q : Q) : Option V :=
  if m.slots.length = 0 then none
  else probeFind keyEq m.slots (hash q % m.slots.length) m.slots.length q

/-- Modelled from the spec: `contains_key(k)` (§4.6). -/
def ArchivedHashMap.containsKey {K V Q : Type} (hash : Q → Nat) (keyEq : K → Q → Bool)
    (m : ArchivedHashMap K V) (q : Q) : Bool :=
  (m.getQ hash keyEq q).isSome

/-- Modelled from the spec: `len()` is O(1) — it returns the stored entry
count (§4.6 contract). -/
def ArchivedHashMap.len {K V : Type} (m : ArchivedHashMap K V) : Nat := m.size

/-- Modelled from the spec: `iter()` yields the occupied slots only, order
unspecified (§4.6). -/
def ArchivedHashMap.iter {K V : Type} (m : ArchivedHashMap K V) : List (K × V) :=
  m.slots.filterMap id

/-- Hash convention for fixed-width integer keys (the concrete hash function
is implementation-private per §6; this model fixes the identity-on-magnitude
hash). -/
def intHash (k : Int) : Nat := k.toNat

/-- Archived-vs-native equality for integer keys. -/
def intKeyEq (k q : Int) : Bool := k == q

/-- Hash convention for text keys: a polynomial byte hash, computed directly
from the archived bytes. -/
def strHash (s : List Byte) : Nat := s.foldl (fun h c => h * 31 + c) 7

/-- Archived-vs-native equality for text: byte-for-byte comparison against
the borrowed native key, without materializing a native copy (§4.6). -/
def strKeyEq (k q : List Byte) : Bool := k == q

/-- The map `{1:2, 3:4, 5:6, 7:8}` of the map-completeness property (§8). -/
def mapEntries1 : List (Int × Int) := [(1, 2), (3, 4), (5, 6), (7, 8)]

/-- The archived form of `mapEntries1`. -/
def archMap1 : ArchivedHashMap Int Int := (buildHashMap intHash mapEntries1).getD ⟨[], 0⟩

/-- The string map `{hello:world, foo:bar, baz:bat}` of the source test
`archive_hash_map`, with strings as byte lists. -/
def strEntries : List (List Byte × List Byte) :=
  [([104, 101, 108, 108, 111], [119, 111, 114, 108, 100]),
   ([102, 111, 111], [98, 97, 114]),
   ([98, 97, 122], [98, 97, 116])]

/-- The archived form of `strEntries`. -/
def archMapS : ArchivedHashMap (List Byte) (List Byte) :=
  (buildHashMap strHash strEntries).getD ⟨[], 0⟩

/-- A token stream of the proc-macro layer; its contents are abstract here. -/
structure TokenStream where
  toks : List String
deriving DecidableEq

/-- A syntax or derivation error of the proc-macro layer. -/
structure SynError where
  msg : String
deriving DecidableEq

/-- Modelled from the spec: syn's `to_compile_error()` — the error rendered
as a compile-error invocation token stream, the diagnostic form the derive
entry points emit on failure (rkyv_derive/src/lib.rs lines 63, 75, 87). -/
def toCompileError (e : SynError) : TokenStream := ⟨["compile_error!", e.msg]⟩

/-- A parsed derive input; abstract. -/
structure DeriveInput where
  raw : TokenStream
deriving DecidableEq

/-- The dispatch shared by the three derive entry points `derive_archive`,
`derive_serialize` and `derive_deserialize` (rkyv_derive/src/lib.rs lines
60-65, 72-77, 84-89): parse the input (`parse_macro_input!` renders a parse
failure as a compile error and returns it), run the inner derivation, and on
`Err(e)` return `e.to_compile_error().into()` instead of panicking.
Modelled from the spec: the parser and the inner derivations
(`archive::derive`, `serialize::derive`, `deserialize::derive`) are code not
among the sources, so they are parameters here. -/
def deriveEntry (parse : TokenStream → Except SynError DeriveInput)
    (inner : DeriveInput → Except SynError TokenStream)
    (input : TokenStream) : TokenStream :=
  match parse input with
  | .error e => toCompileError e
  | .ok d =>
      match inner d with
      | .ok result => result
      | .error e => toCompileError e

/-- Modelled from the spec: the generated wrapped type of a field — the
field's own type, or an explicit `With` adapter type parameterized by the
wrapped type and a wrapper name (§9 attribute-driven wrapper composition). -/
inductive WrappedTy where
  | base (name : String)
  | With (inner : WrappedTy) (wrapper : String)
deriving DecidableEq

/-- Modelled from the spec and the derive documentation (rkyv_derive/src/lib.rs
lines 52-58): a `#[with(A, B, C)]` attribute archives the field by applying
the listed wrappers in reverse order of listing — the last listed wrapper is
innermost. -/
def applyWrappers (t : WrappedTy) (ws : List String) : WrappedTy :=
  ws.foldr (fun w acc => .With acc w) t

/-- C1: for the mapping `{1:2,3:4,5:6,7:8}`, the archived hash map has
`len() = 4`; every original pair is found by `contains_key` and indexing;
iteration yields only original entries; and the empty mapping archives to a
map with `len() = 0` and empty iteration. -/
theorem map_completeness :
    buildHashMap intHash mapEntries1 = some archMap1
    ∧ archMap1.len = 4
    ∧ (∀ kv ∈ mapEntries1,
        archMap1.containsKey intHash intKeyEq kv.1 = true
        ∧ archMap1.getQ intHash intKeyEq kv.1 = some kv.2)
    ∧ (∀ kv ∈ archMap1.iter, kv ∈ mapEntries1)
    ∧ buildHashMap intHash ([] : List (Int × Int)) = some ⟨[], 0⟩
    ∧ (⟨[], 0⟩ : ArchivedHashMap Int Int).len = 0
    ∧ (⟨[], 0⟩ : ArchivedHashMap Int Int).iter = [] := by
  decide

/-- C2: archiving any well-formed plain value — scalar of any width, tuple,
or fixed-size array — and reading the archived bytes back at the returned
position yields a value equal to the original. -/
theorem roundtrip_scalars {v : Value} {b : ArchiveBuffer} {p : Nat} {b1 : ArchiveBuffer}
    (hplain : isPlain v = true) (hwf : wf v = true) (hcap : b.cap < 2 ^ 63)
    (hinv : b.data.length ≤ b.cap) (h : archive v b = .ok (p, b1)) :
    readVal (ty v) b1.data p = some v := by
  obtain ⟨_, _, _, _, _, hread⟩ := archive_ok hwf hcap hinv h
  have h2 := hread []
  rwa [List.append_nil] at h2

/-- Witness for C2 at the 32-bit integer 123456 of `archive_primitives`. -/
theorem roundtrip_scalars_witness :
    archive (.uint 4 123456) (.new 64) = .ok (0, ⟨64, [64, 226, 1, 0]⟩)
    ∧ readVal (ty (.uint 4 123456)) (ArchiveBuffer.mk 64 [64, 226, 1, 0]).data 0
      = some (.uint 4 123456) := by
  have h : archive (.uint 4 123456) (.new 64) = .ok (0, ⟨64, [64, 226, 1, 0]⟩) := by
    simp [archive, serializeChildren, ArchiveBuffer.align, ArchiveBuffer.write,
      ArchiveBuffer.pos, ArchiveBuffer.new, padLen, valueBytes, ty, alignOf,
      leBytes, ok_bind, Except.map]
  exact ⟨h, roundtrip_scalars rfl rfl (by decide) (by decide) h⟩

/-- C3: archiving an unsized sequence or text value through the reference
path returns the position of the reference — written after the payload, it
is the final 16 bytes of the session — and dereferencing the reference read
back from that position yields the original value. -/
theorem roundtrip_unsized {v : Value} {b : ArchiveBuffer} {p : Nat} {b1 : ArchiveBuffer}
    (hun : isUnsized v = true) (hwf : wf v = true) (hcap : b.cap < 2 ^ 63)
    (hinv : b.data.length ≤ b.cap) (h : archive_ref v b = .ok (p, b1)) :
    readVal (ty v) b1.data p = some v ∧ p + 16 = b1.data.length := by
  rw [archive_ref_eq hun] at h
  obtain ⟨_, _, _, _, hsz, hread⟩ := archive_ok hwf hcap hinv h
  constructor
  · have h2 := hread []
    rwa [List.append_nil] at h2
  · match v, hun with
    | .vec t vs, _ => simpa [ty, tySize] using hsz
    | .str s, _ => simpa [ty, tySize] using hsz

/-- Witness for C3 at the text value "hi": the payload bytes go first, the
reference lands at position 8 and is returned. -/
theorem roundtrip_unsized_witness :
    archive_ref (.str [104, 105]) (.new 64)
      = .ok (8, ⟨64, [104, 105, 0, 0, 0, 0, 0, 0,
          248, 255, 255, 255, 255, 255, 255, 255, 2, 0, 0, 0, 0, 0, 0, 0]⟩)
    ∧ readVal (ty (.str [104, 105]))
        (ArchiveBuffer.mk 64 [104, 105, 0, 0, 0, 0, 0, 0,
          248, 255, 255, 255, 255, 255, 255, 255, 2, 0, 0, 0, 0, 0, 0, 0]).data 8
      = some (.str [104, 105])
    ∧ 8 + 16 = (ArchiveBuffer.mk 64 [104, 105, 0, 0, 0, 0, 0, 0,
        248, 255, 255, 255, 255, 255, 255, 255, 2, 0, 0, 0, 0, 0, 0, 0]).data.length := by
  have h : archive_ref (.str [104, 105]) (.new 64)
      = .ok (8, ⟨64, [104, 105, 0, 0, 0, 0, 0, 0,
          248, 255, 255, 255, 255, 255, 255, 255, 2, 0, 0, 0, 0, 0, 0, 0]⟩) := by
    simp [archive_ref, serializeChildren, ArchiveBuffer.align, ArchiveBuffer.write,
      ArchiveBuffer.pos, ArchiveBuffer.new, padLen, refBytes, leBytes, encRel,
      ok_bind, Except.map]
  have h2 := roundtrip_unsized (show isUnsized (.str [104, 105]) = true from rfl)
    (show wf (.str [104, 105]) = true from rfl) (by decide) (by decide) h
  exact ⟨h, h2.1, h2.2⟩

/-- C4: archiving an owning indirection, growable sequence, or text buffer,
or any composition of these with optional values, and then reading the
archived form back — following every reference recursively — yields a value
equal to the original. -/
theorem container_transparency {v : Value} {b : ArchiveBuffer} {p : Nat}
    {b1 : ArchiveBuffer} (hcont : isContainerComp v = true) (hwf : wf v = true)
    (hcap : b.cap < 2 ^ 63) (hinv : b.data.length ≤ b.cap)
    (h : archive v b = .ok (p, b1)) :
    readVal (ty v) b1.data p = some v := by
  obtain ⟨_, _, _, _, _, hread⟩ := archive_ok hwf hcap hinv h
  have h2 := hread []
  rwa [List.append_nil] at h2

/-- Witness for C4 at `Some(Box(42))` (as a 32-bit integer). -/
theorem container_transparency_witness :
    archive (.opt (.boxed (.uint 4)) (some (.boxed (.uint 4 42)))) (.new 64)
      = .ok (8, ⟨64, [42, 0, 0, 0, 0, 0, 0, 0, 1, 0, 0, 0, 0, 0, 0, 0,
          240, 255, 255, 255, 255, 255, 255, 255]⟩)
    ∧ readVal (ty (.opt (.boxed (.uint 4)) (some (.boxed (.uint 4 42)))))
        (ArchiveBuffer.mk 64 [42, 0, 0, 0, 0, 0, 0, 0, 1, 0, 0, 0, 0, 0, 0, 0,
          240, 255, 255, 255, 255, 255, 255, 255]).data 8
      = some (.opt (.boxed (.uint 4)) (some (.boxed (.uint 4 42)))) := by
  have h : archive (.opt (.boxed (.uint 4)) (some (.boxed (.uint 4 42)))) (.new 64)
      = .ok (8, ⟨64, [42, 0, 0, 0, 0, 0, 0, 0, 1, 0, 0, 0, 0, 0, 0, 0,
          240, 255, 255, 255, 255, 255, 255, 255]⟩) := by
    simp [archive, serializeChildren, ArchiveBuffer.align, ArchiveBuffer.write,
      ArchiveBuffer.pos, ArchiveBuffer.new, padLen, valueBytes, ty, alignOf,
      tySize, optPayloadOff, alignUp, leBytes, encRel, ok_bind, Except.map]
  exact ⟨h, container_transparency rfl rfl (by decide) (by decide) h⟩

/-- C5: a write that would exceed the sink capacity fails with an overflow
error exactly then — and on success appends the bytes verbatim, never
truncating; once a session step fails, the whole extended session reports
that same error (no later operation of the session succeeds); and a
successful session always fits within capacity, so a sequence whose required
size exceeds capacity cannot succeed. -/
theorem overflow_behavior :
    (∀ (b : ArchiveBuffer) (bs : List Byte),
      b.write bs = .error .overflow ↔ b.cap < b.data.length + bs.length)
    ∧ (∀ (b : ArchiveBuffer) (bs : List Byte) (q : Nat) (b2 : ArchiveBuffer),
        b.write bs = .ok (q, b2) → b2.data = b.data ++ bs)
    ∧ (∀ (vs1 vs2 : List Value) (b : ArchiveBuffer) (err : ArchiveError),
        archiveMany vs1 b = .error err → archiveMany (vs1 ++ vs2) b = .error err)
    ∧ (∀ (vs : List Value) (b : ArchiveBuffer) (ps : List Nat) (b2 : ArchiveBuffer),
        wfList vs = true → b.cap < 2 ^ 63 → b.data.length ≤ b.cap →
        archiveMany vs b = .ok (ps, b2) → b2.data.length ≤ b.cap) := by
  refine ⟨write_overflow_iff, ?_, ?_, ?_⟩
  · intro b bs q b2 h
    exact (write_ok h).2.1
  · intro vs1 vs2 b err h
    exact archiveMany_error_extend vs2 h
  · intro vs b ps b2 hwf hcap hinv h
    exact (archiveMany_ok_le hwf hcap hinv h).2

/-- Witness for C5: two 4-byte integers overflow a 6-byte sink at the second
write, and the session extended by further values reports the same error. -/
theorem overflow_behavior_witness :
    archiveMany ([.uint 4 1, .uint 4 2] ++ [.uint 4 3]) (.new 6)
      = .error .overflow :=
  overflow_behavior.2.2.1 [.uint 4 1, .uint 4 2] [.uint 4 3] (.new 6) .overflow (by
    simp [archiveMany, archive, serializeChildren, ArchiveBuffer.align,
      ArchiveBuffer.write, ArchiveBuffer.pos, ArchiveBuffer.new, padLen, valueBytes,
      ty, alignOf, leBytes, ok_bind, error_bind, Except.map])

/-- C6: every position returned by `archive` is divisible by the archived
type's required alignment, and every position returned by `archive_ref` is
divisible by the reference alignment (8), so reinterpreting the bytes there
is correctly aligned whenever the buffer's base is maximally aligned. -/
theorem alignment_invariant :
    (∀ (v : Value) (b : ArchiveBuffer) (p : Nat) (b1 : ArchiveBuffer),
      archive v b = .ok (p, b1) → p % alignOf (ty v) = 0)
    ∧ (∀ (v : Value) (b : ArchiveBuffer) (p : Nat) (b1 : ArchiveBuffer),
      archive_ref v b = .ok (p, b1) → p % 8 = 0) := by
  constructor
  · intro v b p b1 h
    simp only [archive] at h
    obtain ⟨⟨r0, bC⟩, hs, h2⟩ := except_bind_ok h
    obtain ⟨bA, hal, h3⟩ := except_bind_ok h2
    obtain ⟨⟨q0, bW⟩, hw, h4⟩ := except_bind_ok h3
    simp only [Except.ok.injEq, Prod.mk.injEq] at h4
    obtain ⟨hp, _⟩ := h4
    subst hp
    obtain ⟨_, _, _, hmod⟩ := align_ok hal
    exact hmod (alignOf_pos _)
  · intro v b p b1 h
    simp only [archive_ref] at h
    obtain ⟨⟨r0, bC⟩, hs, h2⟩ := except_bind_ok h
    obtain ⟨bA, hal, h3⟩ := except_bind_ok h2
    obtain ⟨⟨q0, bW⟩, hw, h4⟩ := except_bind_ok h3
    simp only [Except.ok.injEq, Prod.mk.injEq] at h4
    obtain ⟨hp, _⟩ := h4
    subst hp
    obtain ⟨_, _, _, hmod⟩ := align_ok hal
    exact hmod (by norm_num)

/-- Witness for C6: the boxed value of the C7 witness starts at position 8,
a multiple of its 8-byte reference alignment. -/
theorem alignment_invariant_witness :
    (8 : Nat) % alignOf (ty (.boxed (.uint 4 7))) = 0 :=
  alignment_invariant.1 (.boxed (.uint 4 7)) (.new 64) 8
    ⟨64, [7, 0, 0, 0, 0, 0, 0, 0, 248, 255, 255, 255, 255, 255, 255, 255]⟩ (by
      simp [archive, serializeChildren, ArchiveBuffer.align, ArchiveBuffer.write,
        ArchiveBuffer.pos, ArchiveBuffer.new, padLen, valueBytes, ty, alignOf,
        tySize, leBytes, encRel, ok_bind, Except.map])

/-- C7: the relative pointer produced for an archived indirection stores an
offset that, resolved from the pointer's own storage position, yields exactly
the position the inner `archive` call returned for its target — and the
resolution is invariant under any uniform relocation of the buffer. -/
theorem offset_validity {v : Value} {b : ArchiveBuffer} {p : Nat} {b1 : ArchiveBuffer}
    (hwf : wf v = true) (hcap : b.cap < 2 ^ 63) (hinv : b.data.length ≤ b.cap)
    (h : archive (.boxed v) b = .ok (p, b1)) :
    ∃ q bC bs, archive v b = .ok (q, bC)
      ∧ readBytesAt b1.data p 8 = some bs
      ∧ resolveRel p (leVal bs) = (q : Int)
      ∧ ∀ base, resolveRel (base + p) (leVal bs) = ((base + q : Nat) : Int) := by
  simp only [archive] at h
  obtain ⟨⟨r0, bC0⟩, hs, h2⟩ := except_bind_ok h
  simp only [serializeChildren] at hs
  obtain ⟨⟨q, bC⟩, hin, h5⟩ := except_map_ok hs
  simp only [Prod.mk.injEq] at h5
  obtain ⟨hr0, hbC0⟩ := h5
  subst hr0
  subst hbC0
  obtain ⟨bA, hal, h3⟩ := except_bind_ok h2
  obtain ⟨⟨q0, bW⟩, hw, h4⟩ := except_bind_ok h3
  simp only [Except.ok.injEq, Prod.mk.injEq] at h4
  obtain ⟨hp, hb1⟩ := h4
  subst hp
  subst hb1
  obtain ⟨hcC, hlC, _, _, hszC, _⟩ := archive_ok hwf hcap hinv hin
  obtain ⟨hdA, hcA, hlA, _⟩ := align_ok hal
  obtain ⟨hq0, hdW, hcW, hlW⟩ := write_ok hw
  simp only [valueBytes, ArchiveBuffer.pos] at hdW ⊢
  have hqle : q ≤ bA.data.length := by
    rw [hdA]
    simp only [List.length_append]
    omega
  have hplt : bA.data.length < 2 ^ 63 := by
    have h7 : bA.data.length ≤ bC.cap := hlA
    have h8 : bC.cap = b.cap := hcC
    omega
  have hres := resolveRel_leVal hqle (by omega)
  refine ⟨q, bC, encRel bA.data.length q, hin, ?_, ?_, ?_⟩
  · have h9 := readBytesAt_exact bA.data (encRel bA.data.length q) []
    rw [List.append_nil, encRel_length] at h9
    rw [hdW]
    exact h9
  · exact toNatOpt_eq hres
  · intro base
    rw [resolveRel_shift, toNatOpt_eq hres]
    push_cast
    ring

/-- Witness for C7 at `Box(7u32)`: the payload archives at 0, the reference
at 8, and the stored offset resolves back to 0 under any relocation. -/
theorem offset_validity_witness :
    ∃ q bC bs, archive (.uint 4 7) (.new 64) = .ok (q, bC)
      ∧ readBytesAt (ArchiveBuffer.mk 64
          [7, 0, 0, 0, 0, 0, 0, 0, 248, 255, 255, 255, 255, 255, 255, 255]).data 8 8
        = some bs
      ∧ resolveRel 8 (leVal bs) = (q : Int)
      ∧ ∀ base, resolveRel (base + 8) (leVal bs) = ((base + q : Nat) : Int) :=
  offset_validity rfl (by decide) (by decide) (by
    simp [archive, serializeChildren, ArchiveBuffer.align, ArchiveBuffer.write,
      ArchiveBuffer.pos, ArchiveBuffer.new, padLen, valueBytes, ty, alignOf,
      tySize, leBytes, encRel, ok_bind, Except.map])

/-- C8: wrappers listed in a `#[with(A, B, C)]` attribute are composed in
reverse order of listing: the field archives as
`With<With<With<MyType, C>, B>, A>`, and in general the fold applying the
wrappers equals the left fold over the reversed wrapper list. -/
theorem wrapper_composition_order :
    applyWrappers (.base "MyType") ["A", "B", "C"]
      = .With (.With (.With (.base "MyType") "C") "B") "A"
    ∧ ∀ (t : WrappedTy) (ws : List String),
        applyWrappers t ws = ws.reverse.foldl (fun acc w => .With acc w) t := by
  constructor
  · rfl
  · intro t ws
    rw [List.foldl_reverse]
    rfl

/-- C9: the archived map built from the string map supports lookup by a
borrowed key compared directly against archived bytes: `contains_key` and
indexing succeed for every original pair, the found value equals the native
one under archived-vs-native equality in both directions, and iteration
yields only original entries. -/
theorem string_map_borrowed_lookup :
    buildHashMap strHash strEntries = some archMapS
    ∧ archMapS.len = 3
    ∧ (∀ kv ∈ strEntries,
        archMapS.containsKey strHash strKeyEq kv.1 = true
        ∧ archMapS.getQ strHash strKeyEq kv.1 = some kv.2
        ∧ (archMapS.getQ strHash strKeyEq kv.1).all
            (fun av => strKeyEq av kv.2 && strKeyEq kv.2 av) = true)
    ∧ (∀ kv ∈ archMapS.iter, kv ∈ strEntries) := by
  decide

/-- C10: each derive entry point is total over its inputs: it returns
either the inner derivation's token stream, or the parse or derivation
error rendered as a compile-error token stream — never a panic. -/
theorem derive_entry_total :
    ∀ (parse : TokenStream → Except SynError DeriveInput)
      (inner : DeriveInput → Except SynError TokenStream) (input : TokenStream),
      (∃ e, parse input = .error e ∧ deriveEntry parse inner input = toCompileError e)
      ∨ (∃ d, parse input = .ok d
          ∧ ((∃ res, inner d = .ok res ∧ deriveEntry parse inner input = res)
            ∨ (∃ e, inner d = .error e
                ∧ deriveEntry parse inner input = toCompileError e))) := by
  intro parse inner input
  cases hp : parse input with
  | error e =>
      refine .inl ⟨e, rfl, ?_⟩
      unfold deriveEntry
      rw [hp]
  | ok d =>
      refine .inr ⟨d, rfl, ?_⟩
      cases hi : inner d with
      | ok res =>
          refine .inl ⟨res, rfl, ?_⟩
          unfold deriveEntry
          rw [hp]
          change (match inner d with
            | Except.ok result => result
            | Except.error e => toCompileError e) = res
          rw [hi]
      | error e =>
          refine .inr ⟨e, rfl, ?_⟩
          unfold deriveEntry
          rw [hp]
          change (match inner d with
            | Except.ok result => result
            | Except.error e2 => toCompileError e2) = toCompileError e
          rw [hi]

end Rkyv
